import Mathlib

/-!
# Verification of the `pychain` ledger engine

Shallow embedding of the `pychain` blockchain library
(`pychain/transaction.py`, `pychain/block.py`, `pychain/blockchain.py`)
and proofs about its specified properties.

Modelling conventions:

* SHA-256 (`hashlib.sha256(...).hexdigest()`) is modelled by an explicit
  digest parameter `H : String → String`; theorems that rely on
  collision-freeness take `Function.Injective H` as a hypothesis (the
  standard ideal-hash assumption).
* Python numbers (transaction amounts, timestamps, rewards) are modelled
  as `Int`; `target_block_time` and the difficulty-adjustment ratio are
  modelled as exact rationals `ℚ` (the reference code uses floats; exact
  arithmetic is the idealisation of that).
* Python `str(n)` on an integer is modelled by `intRepr`, a decimal
  rendering implemented below and proved injective.
* `time.time()` calls are modelled by explicit clock arguments.
* The unbounded proof-of-work search loop in `Block.mine_block` is
  modelled with explicit fuel; running out of fuel corresponds to the
  Python loop not having terminated yet.
* Python exceptions are modelled by `Except Err`; the error message
  strings carried by the exceptions are dropped (only the exception
  class matters to the specification).
-/

namespace PyChain

/-! ## Decimal rendering of integers (Python `str`) -/

/-- The decimal digit character for `d < 10`, as Python prints it. -/
def digCh (d : Nat) : Char := Nat.digitChar d

/-- Digit characters of `n` in order, by repeated division; the first
argument is fuel (taking fuel `≥ n` gives the true digit string).
Returns `[]` for `n = 0`. -/
def natReprAux : Nat → Nat → List Char
  | 0, _ => []
  | _ + 1, 0 => []
  | fuel + 1, n + 1 =>
    natReprAux fuel ((n + 1) / 10) ++ [digCh ((n + 1) % 10)]

/-- Python `str` on a natural number. -/
def natRepr (n : Nat) : String :=
  if n = 0 then "0" else String.mk (natReprAux n n)

/-- Python `str` on an integer (minus sign then decimal digits). -/
def intRepr (i : Int) : String :=
  if i < 0 then "-" ++ natRepr i.natAbs else natRepr i.natAbs

/-- Decode a digit list back to a number: left inverse of `natReprAux`. -/
def unDigits (cs : List Char) : Nat :=
  cs.foldl (fun a c => 10 * a + (c.toNat - 48)) 0

theorem unDigits_append (xs ys : List Char) :
    unDigits (xs ++ ys) = ys.foldl (fun a c => 10 * a + (c.toNat - 48)) (unDigits xs) := by
  simp [unDigits, List.foldl_append]

theorem digCh_decode {d : Nat} (h : d < 10) : (digCh d).toNat - 48 = d := by
  interval_cases d <;> rfl

theorem digCh_isDigit {d : Nat} (h : d < 10) : '0' ≤ digCh d ∧ digCh d ≤ '9' := by
  interval_cases d <;> exact ⟨by decide, by decide⟩

theorem natReprAux_zero (fuel : Nat) : natReprAux fuel 0 = [] := by
  cases fuel <;> rfl

theorem natReprAux_spec : ∀ fuel n, 0 < n → n ≤ fuel →
    unDigits (natReprAux fuel n) = n ∧ natReprAux fuel n ≠ [] := by
  intro fuel
  induction fuel with
  | zero => intro n h1 h2 ; omega
  | succ fuel ih =>
    intro n h1 h2
    match n, h1 with
    | n + 1, _ =>
      rw [natReprAux]
      have hq : (n + 1) / 10 ≤ fuel := by
        have := Nat.div_lt_self (Nat.succ_pos n) (by norm_num : 1 < 10)
        omega
      have hr : (n + 1) % 10 < 10 := Nat.mod_lt _ (by norm_num)
      by_cases hz : (n + 1) / 10 = 0
      · have hlt : n + 1 < 10 := by
          have := Nat.div_add_mod (n + 1) 10
          omega
        have : (n + 1) % 10 = n + 1 := Nat.mod_eq_of_lt hlt
        refine ⟨?_, by simp [hz, natReprAux_zero]⟩
        simp only [hz, natReprAux_zero, List.nil_append, unDigits, List.foldl_cons,
          List.foldl_nil, Nat.mul_zero, Nat.zero_add, this]
        exact digCh_decode hlt
      · have h0 : 0 < (n + 1) / 10 := Nat.pos_of_ne_zero hz
        obtain ⟨hdec, _⟩ := ih ((n + 1) / 10) h0 hq
        constructor
        · rw [unDigits_append, hdec]
          simp [digCh_decode hr]
          omega
        · simp

theorem natRepr_inj : Function.Injective natRepr := by
  intro a b h
  by_cases ha : a = 0 <;> by_cases hb : b = 0
  · omega
  · exfalso
    obtain ⟨hdec, hne⟩ := natReprAux_spec b b (Nat.pos_of_ne_zero hb) le_rfl
    simp only [natRepr, ha, hb, if_pos, if_neg, if_true] at h
    have : ['0'] = natReprAux b b := congrArg String.data h
    rw [← this] at hdec
    simp [unDigits] at hdec
    omega
  · exfalso
    obtain ⟨hdec, hne⟩ := natReprAux_spec a a (Nat.pos_of_ne_zero ha) le_rfl
    simp only [natRepr, ha, hb, if_neg, if_pos, if_true] at h
    have : natReprAux a a = ['0'] := congrArg String.data h
    rw [this] at hdec
    simp [unDigits] at hdec
    omega
  · have h' : natReprAux a a = natReprAux b b := by
      simp only [natRepr, ha, hb, if_neg] at h
      exact congrArg String.data h
    obtain ⟨hda, _⟩ := natReprAux_spec a a (Nat.pos_of_ne_zero ha) le_rfl
    obtain ⟨hdb, _⟩ := natReprAux_spec b b (Nat.pos_of_ne_zero hb) le_rfl
    rw [h', hdb] at hda
    omega

theorem natReprAux_digits : ∀ fuel n c, c ∈ natReprAux fuel n → '0' ≤ c ∧ c ≤ '9' := by
  intro fuel
  induction fuel with
  | zero => intro n c h ; simp [natReprAux] at h
  | succ fuel ih =>
    intro n c h
    match n with
    | 0 => simp [natReprAux] at h
    | n + 1 =>
      rw [natReprAux] at h
      rcases List.mem_append.mp h with h' | h'
      · exact ih _ _ h'
      · have hr : (n + 1) % 10 < 10 := Nat.mod_lt _ (by norm_num)
        simp at h'
        rw [h']
        exact digCh_isDigit hr

theorem natRepr_head_digit (n : Nat) :
    ∃ c cs, (natRepr n).data = c :: cs ∧ '0' ≤ c ∧ c ≤ '9' := by
  by_cases h : n = 0
  · exact ⟨'0', [], by simp [natRepr, h], by decide, by decide⟩
  · obtain ⟨_, hne⟩ := natReprAux_spec n n (Nat.pos_of_ne_zero h) le_rfl
    match hcs : natReprAux n n with
    | [] => exact absurd hcs hne
    | c :: cs =>
      refine ⟨c, cs, by simp [natRepr, h, hcs], ?_⟩
      exact natReprAux_digits n n c (by rw [hcs] ; exact List.mem_cons_self _ _)

theorem intRepr_inj : Function.Injective intRepr := by
  intro a b h
  unfold intRepr at h
  by_cases ha : a < 0 <;> by_cases hb : b < 0
  · simp only [ha, hb, if_pos] at h
    have h2 : ("-" ++ natRepr a.natAbs).data = ("-" ++ natRepr b.natAbs).data :=
      congrArg String.data h
    simp only [String.data_append] at h2
    have := natRepr_inj (String.ext (List.append_cancel_left h2))
    omega
  · exfalso
    simp only [ha, hb, if_pos, if_neg] at h
    obtain ⟨c, cs, hcs, hc1, hc2⟩ := natRepr_head_digit b.natAbs
    have h2 : ("-" ++ natRepr a.natAbs).data = (natRepr b.natAbs).data :=
      congrArg String.data h
    rw [hcs] at h2
    simp only [String.data_append] at h2
    have : '-' = c := by
      have : ('-' :: (natRepr a.natAbs).data) = c :: cs := by
        simpa using h2
      exact (List.cons.injEq _ _ _ _ ▸ this).1
    subst this
    revert hc1
    decide
  · exfalso
    simp only [ha, hb, if_pos, if_neg] at h
    obtain ⟨c, cs, hcs, hc1, hc2⟩ := natRepr_head_digit a.natAbs
    have h2 : (natRepr a.natAbs).data = ("-" ++ natRepr b.natAbs).data :=
      congrArg String.data h
    rw [hcs] at h2
    simp only [String.data_append] at h2
    have : c = '-' := by
      have : c :: cs = ('-' :: (natRepr b.natAbs).data) := by
        simpa using h2
      exact (List.cons.injEq _ _ _ _ ▸ this).1
    subst this
    revert hc1
    decide
  · simp only [ha, hb, if_neg] at h
    have := natRepr_inj h
    omega

/-! ## String concatenation cancellation helpers -/

theorem strCancelL {a x y : String} (h : a ++ x = a ++ y) : x = y := by
  have h2 := congrArg String.data h
  simp only [String.data_append] at h2
  exact String.ext (List.append_cancel_left h2)

theorem strCancelR {a x y : String} (h : x ++ a = y ++ a) : x = y := by
  have h2 := congrArg String.data h
  simp only [String.data_append] at h2
  exact String.ext (List.append_cancel_right h2)

/-! ## Errors

Python exception classes of `pychain/exceptions.py`, as bare error kinds
(the message/context strings they carry are dropped; `zeroDivE` stands
for Python's built-in `ZeroDivisionError`). -/

inductive Err where
  | validationE
  | invalidTxE
  | insufficientBalanceE
  | miningE
  | invalidBlockE
  | importExportE
  | blockchainE
  | zeroDivE
deriving DecidableEq, Repr

/-! ## Transaction (`pychain/transaction.py`) -/

/-- A created `Transaction` object: sender, receiver, amount, timestamp
and the content-hash id. -/
structure Transaction where
  sender : String
  receiver : String
  amount : Int
  timestamp : Int
  transaction_id : String
deriving DecidableEq, Repr

/-- The string hashed by `Transaction.calculate_hash`:
`str(sender) + str(receiver) + str(amount) + str(timestamp)`. -/
def txContent (s r : String) (a t : Int) : String :=
  s ++ r ++ intRepr a ++ intRepr t

/-- `Transaction.calculate_hash`: SHA-256 (modelled by `H`) of the
concatenated fields. -/
def Transaction.calculate_hash (H : String → String) (t : Transaction) : String :=
  H (txContent t.sender t.receiver t.amount t.timestamp)

/-- The `amount` argument as passed from Python: a number, or any
non-numeric value (`None` and other non-`int`/`float` values are both
rejected by the consecutive `amount is None` / `isinstance` checks, so
they are modelled by the single constructor `nonNum`). -/
inductive AmountIn where
  | num (n : Int)
  | nonNum
deriving DecidableEq, Repr

/-- `Transaction.__init__`: validation checks in source order, then the
fields are set and the id computed. A `None` timestamp defaults to the
current clock `now` (`time.time()`). -/
def Transaction.create (H : String → String) (sender receiver : Option String)
    (amount : AmountIn) (ts : Option Int) (now : Int) : Except Err Transaction :=
  match sender, receiver with
  | none, _ => .error .validationE
  | some _, none => .error .validationE
  | some s, some r =>
    match amount with
    | .nonNum => .error .validationE
    | .num a =>
      if a ≤ 0 ∧ s ≠ "System" then .error .validationE
      else if s = r then .error .invalidTxE
      else
        let t := ts.getD now
        .ok ⟨s, r, a, t, H (txContent s r a t)⟩

/-- `Transaction.is_valid` (the boolean component; the reason string is
dropped). The `None`-field check cannot fire on a typed value. -/
def Transaction.is_valid (t : Transaction) : Bool :=
  if t.sender = t.receiver then false
  else if t.amount ≤ 0 ∧ t.sender ≠ "System" then false
  else true

/-- Python `str(transaction)`: `f"{sender} -> {receiver}: {amount}"`. -/
def txStr (t : Transaction) : String :=
  t.sender ++ " -> " ++ t.receiver ++ ": " ++ intRepr t.amount

/-! ## Python runtime values for the block payload

`Block.__init__` receives an untyped `data` argument; `PyVal` models the
JSON-compatible Python values plus `Transaction` objects (floats and
booleans are not modelled; no claim involves them). -/

inductive PyVal where
  | pyStr (s : String)
  | pyInt (n : Int)
  | pyNone
  | pyTx (t : Transaction)
  | pyList (xs : List PyVal)
  | pyDict (kvs : List (String × PyVal))

/-- JSON string quoting as `json.dumps` does: quote, escaping `"` and
`\` (control-character and non-ASCII escapes are not modelled; no claim
depends on them). -/
def escChar (c : Char) : List Char :=
  if c = '"' ∨ c = '\\' then ['\\', c] else [c]

def jstr (s : String) : String :=
  "\"" ++ String.mk ((s.data.map escChar).flatten) ++ "\""

/-- Join rendered items with `json.dumps`' default item separator. -/
def joinComma : List String → String
  | [] => ""
  | [x] => x
  | x :: y :: ys => x ++ ", " ++ joinComma (y :: ys)

/-- Insertion sort of rendered dict entries by key (`sort_keys=True`). -/
def insertPair (p : String × String) : List (String × String) → List (String × String)
  | [] => [p]
  | q :: qs => if p.1 ≤ q.1 then p :: q :: qs else q :: insertPair p qs

def sortPairs : List (String × String) → List (String × String)
  | [] => []
  | p :: ps => insertPair p (sortPairs ps)

mutual

/-- `json.dumps(v, sort_keys=True)` on a Python value; `none` models the
`TypeError` raised on a non-serialisable value (a `Transaction` object
inside a container). -/
def jsonDump : PyVal → Option String
  | .pyStr s => some (jstr s)
  | .pyInt n => some (intRepr n)
  | .pyNone => some "null"
  | .pyTx _ => none
  | .pyList xs => (jsonDumpList xs).map (fun es => "[" ++ joinComma es ++ "]")
  | .pyDict kvs =>
    (jsonDumpKVs kvs).map (fun es =>
      "\x7b" ++ joinComma ((sortPairs es).map (fun p => jstr p.1 ++ ": " ++ p.2)) ++ "\x7d")

def jsonDumpList : List PyVal → Option (List String)
  | [] => some []
  | v :: vs => do pure ((← jsonDump v) :: (← jsonDumpList vs))

def jsonDumpKVs : List (String × PyVal) → Option (List (String × String))
  | [] => some []
  | (k, v) :: kvs => do pure ((k, (← jsonDump v)) :: (← jsonDumpKVs kvs))

end

/-! ## Block (`pychain/block.py`) -/

structure Block where
  index : Int
  timestamp : Int
  transactions : Option (List Transaction)
  data : PyVal
  previous_hash : String
  difficulty : Int
  nonce : Nat
  hash : String

/-- `tx.to_dict()` rendered by `json.dumps(·, sort_keys=True)`: keys in
sorted order `amount, receiver, sender, timestamp, transaction_id`. -/
def txJson (t : Transaction) : String :=
  "\x7b\"amount\": " ++ intRepr t.amount ++ ", \"receiver\": " ++ jstr t.receiver ++
  ", \"sender\": " ++ jstr t.sender ++ ", \"timestamp\": " ++ intRepr t.timestamp ++
  ", \"transaction_id\": " ++ jstr t.transaction_id ++ "\x7d"

def txListJson (txs : List Transaction) : String :=
  "[" ++ joinComma (txs.map txJson) ++ "]"

/-- The legacy-data branch of `Block.calculate_hash`: `json.dumps` for
dicts and lists, `str(data)` otherwise. -/
def legacySerialize : PyVal → Option String
  | .pyList xs => jsonDump (.pyList xs)
  | .pyDict kvs => jsonDump (.pyDict kvs)
  | .pyStr s => some s
  | .pyInt n => some (intRepr n)
  | .pyNone => some "None"
  | .pyTx t => some (txStr t)

/-- The `data_string` computed by `Block.calculate_hash`. -/
def dataString (b : Block) : Option String :=
  match b.transactions with
  | some txs => some (txListJson txs)
  | none => legacySerialize b.data

/-- The full `block_string`
`f"{index}{timestamp}{data_string}{previous_hash}{nonce}"`. -/
def blockContent (b : Block) : Option String :=
  (dataString b).map (fun d =>
    intRepr b.index ++ intRepr b.timestamp ++ d ++ b.previous_hash ++ natRepr b.nonce)

/-- `Block.calculate_hash`; `none` models the raised `InvalidBlockError`
when payload serialisation fails. -/
def Block.calculate_hash (H : String → String) (b : Block) : Option String :=
  (blockContent b).map H

/-- Python string slice `s[:d]` (negative stops count from the end). -/
def pySlice (l : List Char) (d : Int) : List Char :=
  if 0 ≤ d then l.take d.toNat else l.take ((l.length + d).toNat)

/-- `"0" * d` (empty for `d ≤ 0`). -/
def powTarget (d : Int) : List Char := List.replicate d.toNat '0'

/-- The proof-of-work test `hash[:difficulty] == "0" * difficulty`. -/
def powOk (h : String) (d : Int) : Bool := pySlice h.data d == powTarget d

def isTxVal : PyVal → Bool
  | .pyTx _ => true
  | _ => false

/-- The duck-typing test in `Block.__init__`:
`isinstance(data, list) and len(data) > 0 and hasattr(data[0], 'transaction_id')`. -/
def txShaped : PyVal → Bool
  | .pyList (x :: _) => isTxVal x
  | _ => false

/-- Unwrap a Python list all of whose elements are `Transaction`s. -/
def asTxList : List PyVal → Option (List Transaction)
  | [] => some []
  | .pyTx t :: xs => (asTxList xs).map (t :: ·)
  | _ => none

/-- The payload classification of `Block.__init__`: `none` models the
`AttributeError` raised later in `calculate_hash` when a
transaction-shaped list contains a non-transaction element. -/
def classify (data : PyVal) : Option (Option (List Transaction) × PyVal) :=
  match data with
  | .pyList (x :: xs) =>
    if isTxVal x then (asTxList (x :: xs)).map (fun txs => (some txs, PyVal.pyNone))
    else some (none, .pyList (x :: xs))
  | d => some (none, d)

/-- `Block.__init__`: classify the payload by runtime shape, set the
fields with `nonce = 0`, and compute the initial hash. A serialisation
failure inside `calculate_hash` surfaces as `InvalidBlockError`. -/
def Block.create (H : String → String) (index timestamp : Int) (data : PyVal)
    (previous_hash : String) (difficulty : Int) : Except Err Block :=
  match classify data with
  | none => .error .invalidBlockE
  | some (txs, dat) =>
    match Block.calculate_hash H ⟨index, timestamp, txs, dat, previous_hash, difficulty, 0, ""⟩ with
    | none => .error .invalidBlockE
    | some hv => .ok ⟨index, timestamp, txs, dat, previous_hash, difficulty, 0, hv⟩

/-- The `while` loop of `Block.mine_block`, with explicit fuel bounding
the number of iterations (the Python loop is unbounded). -/
def Block.mine_loop (H : String → String) : Nat → Block → Option Block
  | 0, _ => none
  | fuel + 1, b =>
    if powOk b.hash b.difficulty then some b
    else
      match Block.calculate_hash H { b with nonce := b.nonce + 1 } with
      | none => none
      | some h => Block.mine_loop H fuel { b with nonce := b.nonce + 1, hash := h }

/-! ## Blockchain (`pychain/blockchain.py`) -/

structure Blockchain where
  chain : List Block
  difficulty : Int
  target_block_time : ℚ
  adjustment_interval : Int
  pending_transactions : List Transaction
  mining_reward : Int
  initial_balances : List (String × Int)

/-- Python `dict.get(a, 0)` on the initial-balances dict (modelled as an
association list with unique keys). -/
def lookupD (m : List (String × Int)) (a : String) : Int :=
  match m.find? (fun p => p.1 == a) with
  | some p => p.2
  | none => 0

/-- One transaction's effect on a single address's balance
(the two `if`s in `get_balance`). -/
def txBalStep (address : String) (bal : Int) (t : Transaction) : Int :=
  let b1 := if t.sender = address then bal - t.amount else bal
  if t.receiver = address then b1 + t.amount else b1

/-- `Blockchain.get_balance`. -/
def Blockchain.get_balance (bc : Blockchain) (address : String)
    (include_pending : Bool) : Int :=
  let base := lookupD bc.initial_balances address
  let afterChain := bc.chain.foldl (fun bal b =>
    match b.transactions with
    | some txs => txs.foldl (txBalStep address) bal
    | none => bal) base
  if include_pending then bc.pending_transactions.foldl (txBalStep address) afterChain
  else afterChain

/-- One transaction's effect on the balances dict in
`validate_block_transactions` (sender entry updated first, then the
receiver entry, reading through `balances.get(·, 0)`; the dict is
modelled as a total function with default `0`). -/
def applyTx (m : String → Int) (t : Transaction) : String → Int :=
  let m1 := Function.update m t.sender (m t.sender - t.amount)
  Function.update m1 t.receiver (m1 t.receiver + t.amount)

def replayBlock (m : String → Int) (b : Block) : String → Int :=
  match b.transactions with
  | some txs => txs.foldl applyTx m
  | none => m

/-- The balance-reconstruction loop of `validate_block_transactions`:
fold all transactions of the given blocks over the balances dict. -/
def replayChain (m : String → Int) (blocks : List Block) : String → Int :=
  blocks.foldl replayBlock m

/-- `dict(self.initial_balances)` read through `.get(·, 0)`. -/
def initMap (bc : Blockchain) : String → Int :=
  fun a => lookupD bc.initial_balances a

/-- The three per-transaction checks of `validate_block_transactions`:
structural validity, id integrity, and (for non-`"System"` senders)
sufficient running balance. -/
def txChecks (H : String → String) (m : String → Int) (t : Transaction) : Bool :=
  t.is_valid && (t.transaction_id == t.calculate_hash H) &&
  (t.sender == "System" || decide (t.amount ≤ m t.sender))

/-- The per-block transaction loop of `validate_block_transactions`:
check each transaction against the running balances, then apply it. -/
def txSeqOk (H : String → String) : (String → Int) → List Transaction → Bool
  | _, [] => true
  | m, t :: ts => txChecks H m t && txSeqOk H (applyTx m t) ts

/-- `Blockchain.validate_block_transactions` on the block at position
`i` (the Python code receives the block object and recovers `i` with
`self.chain.index(block)`, which under object identity is the block's
own position; a block not in the chain yields `False`). -/
def Blockchain.validate_block_transactions (H : String → String) (bc : Blockchain)
    (i : Nat) : Bool :=
  match bc.chain[i]? with
  | none => false
  | some b =>
    match b.transactions with
    | none => true
    | some txs => txSeqOk H (replayChain (initMap bc) (bc.chain.take i)) txs

/-- The per-block body of the `is_chain_valid` loop: hash integrity,
proof of work, chain linkage, and transaction validation, in source
order (a hash-computation failure is caught by the surrounding
`except` and yields `False`). -/
def blockCheck (H : String → String) (bc : Blockchain) (i : Nat) (b : Block) : Bool :=
  (match Block.calculate_hash H b with
   | none => false
   | some c => b.hash == c) &&
  powOk b.hash b.difficulty &&
  (if i = 0 then b.previous_hash == "0"
   else match bc.chain[i-1]? with
        | some pb => b.previous_hash == pb.hash
        | none => false) &&
  bc.validate_block_transactions H i

/-- `Blockchain.is_chain_valid` (the early-`return False` scan has the
same boolean value as the conjunction over all positions). -/
def Blockchain.is_chain_valid (H : String → String) (bc : Blockchain) : Bool :=
  (List.range bc.chain.length).all fun i =>
    match bc.chain[i]? with
    | some b => blockCheck H bc i b
    | none => false

/-- Consecutive inter-block timestamp differences of a block window. -/
def blockDeltas (l : List Block) : List Int :=
  (l.zip l.tail).map (fun p => p.2.timestamp - p.1.timestamp)

/-- `Blockchain.adjust_difficulty`. Python raises `ZeroDivisionError`
when `adjustment_interval == 0` (at the `%`), when the window yields no
deltas (`adjustment_interval == 1`), or when `target_block_time == 0`;
non-positive intervals are folded into the same error (no claim
exercises them). Float arithmetic is modelled exactly over `ℚ`. -/
def Blockchain.adjust_difficulty (bc : Blockchain) : Except Err Int :=
  if bc.adjustment_interval ≤ 0 then .error .zeroDivE
  else if (bc.chain.length : Int) % bc.adjustment_interval ≠ 0 then .ok bc.difficulty
  else if (bc.chain.length : Int) < bc.adjustment_interval then .ok bc.difficulty
  else
    let recent := bc.chain.drop (bc.chain.length - bc.adjustment_interval.toNat)
    let deltas := blockDeltas recent
    if deltas.length = 0 then .error .zeroDivE
    else
      let avg : ℚ := ((deltas.foldl (· + ·) 0 : Int) : ℚ) / (deltas.length : ℚ)
      if bc.target_block_time = 0 then .error .zeroDivE
      else
        let factor := avg / bc.target_block_time
        if factor < 3 / 4 then .ok (min 8 (bc.difficulty + 1))
        else if 3 / 2 < factor then .ok (max 1 (bc.difficulty - 1))
        else .ok bc.difficulty

/-- `Blockchain.create_transaction`. A `ValidationError` escaping the
`Transaction` constructor is re-wrapped as `BlockchainError` by the
generic handler; `InvalidTransactionError` propagates unchanged. The
state is returned alongside the result (unchanged on every error). -/
def Blockchain.create_transaction (H : String → String) (bc : Blockchain)
    (sender receiver : Option String) (amount : AmountIn) (now : Int) :
    Except Err Transaction × Blockchain :=
  match Transaction.create H sender receiver amount none now with
  | .error e =>
    (.error (if e = Err.invalidTxE then Err.invalidTxE else Err.blockchainE), bc)
  | .ok tx =>
    if !tx.is_valid then (.error .invalidTxE, bc)
    else
      let bal := bc.get_balance tx.sender true
      if tx.sender ≠ "System" ∧ bal < tx.amount then (.error .insufficientBalanceE, bc)
      else (.ok tx, { bc with pending_transactions := bc.pending_transactions ++ [tx] })

/-- `Blockchain.mine_pending_transactions`. Note that the difficulty
assignment happens before the reward transaction is built, so the
adjusted difficulty persists even when a later step fails. Fuel
exhaustion of the mining loop is reported as `MiningError` (in Python
the loop simply has not terminated yet). -/
def Blockchain.mine_pending_transactions (H : String → String) (fuel : Nat)
    (bc : Blockchain) (miner : String) (txNow blockNow : Int) :
    Except Err (Option Block) × Blockchain :=
  if bc.pending_transactions = [] then (.ok none, bc)
  else if miner = "" then (.error .validationE, bc)
  else
    match bc.adjust_difficulty with
    | .error _ => (.error .miningE, bc)
    | .ok d' =>
      let bc1 := { bc with difficulty := d' }
      match Transaction.create H (some "System") (some miner) (.num bc1.mining_reward)
          none txNow with
      | .error _ => (.error .miningE, bc1)
      | .ok reward =>
        match bc1.chain.getLast? with
        | none => (.error .miningE, bc1)
        | some prev =>
          match Block.create H (prev.index + 1) blockNow
              (.pyList ((bc1.pending_transactions ++ [reward]).map .pyTx))
              prev.hash bc1.difficulty with
          | .error _ => (.error .miningE, bc1)
          | .ok nb =>
            match Block.mine_loop H fuel nb with
            | none => (.error .miningE, bc1)
            | some mined =>
              (.ok (some mined),
               { bc1 with chain := bc1.chain ++ [mined], pending_transactions := [] })

/-- `Blockchain.add_block` (legacy interface). The difficulty
assignment precedes block construction; an exception in
`adjust_difficulty` propagates before the assignment, one in block
construction or mining after it. -/
def Blockchain.add_block (H : String → String) (fuel : Nat) (bc : Blockchain)
    (data : PyVal) (now : Int) : Except Err Block × Blockchain :=
  match bc.adjust_difficulty with
  | .error e => (.error e, bc)
  | .ok d' =>
    let bc1 := { bc with difficulty := d' }
    match bc1.chain.getLast? with
    | none => (.error .blockchainE, bc1)
    | some prev =>
      match Block.create H (prev.index + 1) now data prev.hash bc1.difficulty with
      | .error e => (.error e, bc1)
      | .ok nb =>
        match Block.mine_loop H fuel nb with
        | none => (.error .invalidBlockE, bc1)
        | some mined => (.ok mined, { bc1 with chain := bc1.chain ++ [mined] })

/-- `Blockchain.__init__`: set the policy fields (mining reward fixed at
`10`) and mine the genesis block (a single `System → "Genesis"` amount-0
transaction). `none` models `BlockchainError` (or unfinished genesis
mining, via fuel). -/
def Blockchain.create (H : String → String) (fuel : Nat) (difficulty : Int)
    (target_block_time : ℚ) (adjustment_interval : Int)
    (initial_balances : List (String × Int)) (txNow blockNow : Int) :
    Option Blockchain :=
  match Transaction.create H (some "System") (some "Genesis") (.num 0) none txNow with
  | .error _ => none
  | .ok gtx =>
    match Block.create H 0 blockNow (.pyList [.pyTx gtx]) "0" difficulty with
    | .error _ => none
    | .ok gb =>
      match Block.mine_loop H fuel gb with
      | none => none
      | some genesis =>
        some ⟨[genesis], difficulty, target_block_time, adjustment_interval, [], 10,
              initial_balances⟩

/-! ## Basic facts about the embedded operations -/

/-- A successfully constructed transaction has the advertised fields and
a freshly computed content-hash id. -/
theorem Transaction.create_ok {H : String → String} {s r : Option String}
    {a : AmountIn} {ts : Option Int} {now : Int} {t : Transaction}
    (h : Transaction.create H s r a ts now = .ok t) :
    ∃ s' r' x, s = some s' ∧ r = some r' ∧ a = .num x ∧
      t = ⟨s', r', x, ts.getD now, H (txContent s' r' x (ts.getD now))⟩ ∧
      ¬(x ≤ 0 ∧ s' ≠ "System") ∧ s' ≠ r' := by
  match s, r with
  | none, _ => simp [Transaction.create] at h
  | some s', none => simp [Transaction.create] at h
  | some s', some r' =>
    match a with
    | .nonNum => simp [Transaction.create] at h
    | .num x =>
      simp only [Transaction.create] at h
      split at h
      · simp at h
      · split at h
        · simp at h
        · rename_i h1 h2
          simp only [Except.ok.injEq] at h
          exact ⟨s', r', x, rfl, rfl, rfl, h.symm, h1, h2⟩

theorem Transaction.create_ok_id {H : String → String} {s r : Option String}
    {a : AmountIn} {ts : Option Int} {now : Int} {t : Transaction}
    (h : Transaction.create H s r a ts now = .ok t) :
    t.transaction_id = t.calculate_hash H := by
  obtain ⟨s', r', x, _, _, _, ht, _, _⟩ := Transaction.create_ok h
  subst ht ; rfl

theorem Transaction.create_ok_valid {H : String → String} {s r : Option String}
    {a : AmountIn} {ts : Option Int} {now : Int} {t : Transaction}
    (h : Transaction.create H s r a ts now = .ok t) :
    t.is_valid = true := by
  obtain ⟨s', r', x, _, _, _, ht, h1, h2⟩ := Transaction.create_ok h
  subst ht
  simp [Transaction.is_valid, h1, h2]

/-- `dataString` ignores the nonce and hash fields. -/
theorem dataString_update (b : Block) (k : Nat) (h : String) :
    dataString { b with nonce := k, hash := h } = dataString b := rfl

/-- `asTxList` inverts `List.map PyVal.pyTx`. -/
theorem asTxList_map (l : List Transaction) : asTxList (l.map .pyTx) = some l := by
  induction l with
  | nil => rfl
  | cons t ts ih => simp [asTxList, ih]

theorem classify_txs (l : List Transaction) (hne : l ≠ []) :
    classify (.pyList (l.map .pyTx)) = some (some l, .pyNone) := by
  match l, hne with
  | t0 :: ts, _ => simp [classify, isTxVal, asTxList, asTxList_map ts]

theorem classify_legacy {d : PyVal} (hshape : txShaped d = false) :
    classify d = some (none, d) := by
  match d with
  | .pyList (x :: xs) =>
    simp only [txShaped] at hshape
    simp [classify, hshape]
  | .pyList [] => rfl
  | .pyStr s => rfl
  | .pyInt n => rfl
  | .pyNone => rfl
  | .pyTx t => rfl
  | .pyDict kvs => rfl

/-- A successfully constructed block: nonce 0, correctly stored hash,
and the constructor arguments recorded in the fields. -/
theorem Block.created_ok {H : String → String} {i t : Int} {d : PyVal} {p : String}
    {df : Int} {b : Block} (h : Block.create H i t d p df = .ok b) :
    b.index = i ∧ b.timestamp = t ∧ b.previous_hash = p ∧ b.difficulty = df ∧
      b.nonce = 0 ∧ Block.calculate_hash H b = some b.hash := by
  unfold Block.create at h
  cases hcl : classify d with
  | none => rw [hcl] at h ; simp at h
  | some pr =>
    obtain ⟨txs, dat⟩ := pr
    rw [hcl] at h
    dsimp only at h
    cases hcalc : Block.calculate_hash H ⟨i, t, txs, dat, p, df, 0, ""⟩ with
    | none => rw [hcalc] at h ; simp at h
    | some hv =>
      rw [hcalc] at h
      simp only [Except.ok.injEq] at h
      subst h
      refine ⟨rfl, rfl, rfl, rfl, rfl, ?_⟩
      simpa [Block.calculate_hash, blockContent, dataString] using hcalc

/-- Creating a block from a nonempty list of `Transaction` objects
classifies it as a transaction block with those transactions. -/
theorem Block.create_txs {H : String → String} {i t : Int} {p : String} {df : Int}
    (l : List Transaction) (hne : l ≠ []) :
    Block.create H i t (.pyList (l.map .pyTx)) p df =
      .ok ⟨i, t, some l, .pyNone, p, df, 0,
           H (intRepr i ++ intRepr t ++ txListJson l ++ p ++ natRepr 0)⟩ := by
  unfold Block.create
  rw [classify_txs l hne]
  rfl

/-- Creating a block from a non-transaction-shaped payload classifies it
as a legacy block. -/
theorem Block.create_legacy {H : String → String} {i t : Int} {d : PyVal} {p : String}
    {df : Int} {b : Block} (hshape : txShaped d = false)
    (h : Block.create H i t d p df = .ok b) :
    b.transactions = none ∧ b.data = d := by
  unfold Block.create at h
  rw [classify_legacy hshape] at h
  dsimp only at h
  cases hcalc : Block.calculate_hash H ⟨i, t, none, d, p, df, 0, ""⟩ with
  | none => rw [hcalc] at h ; simp at h
  | some hv =>
    rw [hcalc] at h
    simp only [Except.ok.injEq] at h
    subst h
    exact ⟨rfl, rfl⟩

/-- The mining loop preserves all fields but nonce/hash, keeps the
stored hash equal to the recomputed hash, and establishes the
proof-of-work postcondition. -/
theorem Block.mine_loop_spec {H : String → String} :
    ∀ {fuel : Nat} {b b' : Block}, Block.mine_loop H fuel b = some b' →
      Block.calculate_hash H b = some b.hash →
      b'.index = b.index ∧ b'.timestamp = b.timestamp ∧
        b'.transactions = b.transactions ∧ b'.data = b.data ∧
        b'.previous_hash = b.previous_hash ∧ b'.difficulty = b.difficulty ∧
        Block.calculate_hash H b' = some b'.hash ∧
        powOk b'.hash b'.difficulty = true := by
  intro fuel
  induction fuel with
  | zero => intro b b' h ; simp [Block.mine_loop] at h
  | succ fuel ih =>
    intro b b' h hc
    rw [Block.mine_loop] at h
    split at h
    · rename_i hpow
      cases h
      exact ⟨rfl, rfl, rfl, rfl, rfl, rfl, hc, hpow⟩
    · split at h
      · simp at h
      · rename_i hcalc
        have hc' : Block.calculate_hash H { b with nonce := b.nonce + 1, hash := ‹String› } =
            some ‹String› := by
          simpa [Block.calculate_hash, dataString_update] using hcalc
        obtain ⟨h1, h2, h3, h4, h5, h6, h7, h8⟩ := ih h hc'
        exact ⟨h1, h2, h3, h4, h5, h6, h7, h8⟩

/-! ## Coherence of the two balance computations -/

/-- The balances-dict update of `validate_block_transactions` agrees,
pointwise, with the single-address update of `get_balance`. -/
theorem applyTx_eval (m : String → Int) (t : Transaction) (a : String) :
    applyTx m t a = txBalStep a (m a) t := by
  by_cases hr : t.receiver = a <;> by_cases hs : t.sender = a
  · simp [applyTx, txBalStep, Function.update_apply, hr, hs]
  · simp [applyTx, txBalStep, Function.update_apply, hr, hs, Ne.symm hs]
  · simp [applyTx, txBalStep, Function.update_apply, hr, hs, Ne.symm hr]
  · simp [applyTx, txBalStep, Function.update_apply, hr, hs, Ne.symm hr, Ne.symm hs]

theorem foldl_applyTx_eval (txs : List Transaction) : ∀ (m : String → Int) (a : String),
    txs.foldl applyTx m a = txs.foldl (txBalStep a) (m a) := by
  induction txs with
  | nil => intro m a ; rfl
  | cons t ts ih =>
    intro m a
    rw [List.foldl_cons, List.foldl_cons, ih, applyTx_eval]

theorem replayChain_eval (blocks : List Block) : ∀ (m : String → Int) (a : String),
    replayChain m blocks a =
      blocks.foldl (fun bal b =>
        match b.transactions with
        | some txs => txs.foldl (txBalStep a) bal
        | none => bal) (m a) := by
  induction blocks with
  | nil => intro m a ; rfl
  | cons b bs ih =>
    intro m a
    have e1 : replayChain m (b :: bs) = replayChain (replayBlock m b) bs := rfl
    rw [e1, ih, List.foldl_cons]
    congr 1
    cases hb : b.transactions with
    | none => simp [replayBlock, hb]
    | some txs =>
      simp only [replayBlock, hb]
      exact foldl_applyTx_eval txs m a

/-- `get_balance` without the pool is the balances-dict replay of the
whole chain, read at the address. -/
theorem get_balance_false (bc : Blockchain) (a : String) :
    bc.get_balance a false = replayChain (initMap bc) bc.chain a := by
  rw [replayChain_eval]
  rfl

/-- `get_balance` including the pool additionally folds the pending
transactions. -/
theorem get_balance_true (bc : Blockchain) (a : String) :
    bc.get_balance a true =
      bc.pending_transactions.foldl applyTx (replayChain (initMap bc) bc.chain) a := by
  rw [foldl_applyTx_eval, ← get_balance_false]
  rfl

/-- Splitting the transaction-checking fold of
`validate_block_transactions` across an append. -/
theorem txSeqOk_append (H : String → String) (xs ys : List Transaction) : ∀ m,
    txSeqOk H m (xs ++ ys) = (txSeqOk H m xs && txSeqOk H (xs.foldl applyTx m) ys) := by
  induction xs with
  | nil => intro m ; simp [txSeqOk]
  | cons t ts ih =>
    intro m
    rw [List.cons_append, txSeqOk, txSeqOk, List.foldl_cons, ih, Bool.and_assoc]

/-! ## Structure of `is_chain_valid` -/

theorem is_chain_valid_iff (H : String → String) (bc : Blockchain) :
    bc.is_chain_valid H = true ↔
      ∀ i b, bc.chain[i]? = some b → blockCheck H bc i b = true := by
  unfold Blockchain.is_chain_valid
  rw [List.all_eq_true]
  constructor
  · intro h i b hb
    have hi : i < bc.chain.length := (List.getElem?_eq_some_iff.mp hb).1
    have := h i (List.mem_range.mpr hi)
    simpa [hb] using this
  · intro h x hx
    cases hg : bc.chain[x]? with
    | none =>
      exfalso
      have hx' : x < bc.chain.length := List.mem_range.mp hx
      rw [List.getElem?_eq_none_iff] at hg
      omega
    | some b => simpa [hg] using h x b hg

theorem is_chain_valid_false (H : String → String) (bc : Blockchain) (i : Nat) (b : Block)
    (hb : bc.chain[i]? = some b) (hf : blockCheck H bc i b = false) :
    bc.is_chain_valid H = false := by
  cases hv : bc.is_chain_valid H with
  | false => rfl
  | true =>
    have := (is_chain_valid_iff H bc).mp hv i b hb
    rw [hf] at this
    exact absurd this (by simp)

/-- A hash satisfying the proof-of-work target for difficulty `d` also
satisfies it for any smaller non-negative difficulty. -/
theorem powOk_mono {h : String} {d d' : Int} (hp : powOk h d = true) (h0 : 0 ≤ d')
    (hle : d' ≤ d) : powOk h d' = true := by
  have h0d : 0 ≤ d := le_trans h0 hle
  unfold powOk pySlice powTarget at hp ⊢
  rw [if_pos h0d] at hp
  rw [if_pos h0]
  simp only [beq_iff_eq] at hp ⊢
  have hn : d'.toNat ≤ d.toNat := Int.toNat_le_toNat hle
  calc h.data.take d'.toNat
      = (h.data.take d.toNat).take d'.toNat := by rw [List.take_take, min_eq_left hn]
    _ = (List.replicate d.toNat '0').take d'.toNat := by rw [hp]
    _ = List.replicate d'.toNat '0' := by rw [List.take_replicate, min_eq_left hn]

/-! ## Congruence of validation in the parts of the state it reads -/

theorem replayChain_congr : ∀ (l1 l2 : List Block),
    l1.map Block.transactions = l2.map Block.transactions →
    ∀ m, replayChain m l1 = replayChain m l2 := by
  intro l1
  induction l1 with
  | nil =>
    intro l2 h m
    cases l2 with
    | nil => rfl
    | cons c cs => simp at h
  | cons b bs ih =>
    intro l2 h m
    cases l2 with
    | nil => simp at h
    | cons c cs =>
      simp only [List.map_cons, List.cons.injEq] at h
      have e1 : replayChain m (b :: bs) = replayChain (replayBlock m b) bs := rfl
      have e2 : replayChain m (c :: cs) = replayChain (replayBlock m c) cs := rfl
      have hb : replayBlock m b = replayBlock m c := by
        unfold replayBlock ; rw [h.1]
      rw [e1, e2, hb]
      exact ih cs h.2 _

theorem validate_congr (H : String → String) (bc bc' : Blockchain) (i : Nat)
    (hib : bc'.initial_balances = bc.initial_balances)
    (hmap : bc'.chain.map Block.transactions = bc.chain.map Block.transactions) :
    bc'.validate_block_transactions H i = bc.validate_block_transactions H i := by
  unfold Blockchain.validate_block_transactions
  have hget : ∀ j : Nat, (bc'.chain[j]?).map Block.transactions =
      (bc.chain[j]?).map Block.transactions := by
    intro j ; rw [← List.getElem?_map, ← List.getElem?_map, hmap]
  have him : initMap bc' = initMap bc := by unfold initMap ; rw [hib]
  have hrep : replayChain (initMap bc') (bc'.chain.take i) =
      replayChain (initMap bc) (bc.chain.take i) := by
    rw [him]
    exact replayChain_congr _ _ (by rw [List.map_take, List.map_take, hmap]) _
  cases h1 : bc.chain[i]? with
  | none =>
    cases h2 : bc'.chain[i]? with
    | none => rfl
    | some b =>
      have hcontra := hget i
      rw [h1, h2] at hcontra
      exact absurd hcontra (by simp)
  | some b =>
    cases h2 : bc'.chain[i]? with
    | none =>
      have hcontra := hget i
      rw [h1, h2] at hcontra
      exact absurd hcontra (by simp)
    | some b' =>
      have := hget i
      rw [h1, h2] at this
      simp only [Option.map_some', Option.some.injEq] at this
      show (match b'.transactions with
            | none => true
            | some txs => txSeqOk H (replayChain (initMap bc') (List.take i bc'.chain)) txs) =
          (match b.transactions with
            | none => true
            | some txs => txSeqOk H (replayChain (initMap bc) (List.take i bc.chain)) txs)
      rw [this, hrep]

theorem blockCheck_congr (H : String → String) (bc bc' : Blockchain) (i : Nat) (b : Block)
    (hch : bc'.chain = bc.chain) (hib : bc'.initial_balances = bc.initial_balances) :
    blockCheck H bc' i b = blockCheck H bc i b := by
  unfold blockCheck
  rw [hch, validate_congr H bc bc' i hib (by rw [hch])]

theorem is_chain_valid_congr (H : String → String) (bc bc' : Blockchain)
    (hch : bc'.chain = bc.chain) (hib : bc'.initial_balances = bc.initial_balances) :
    bc'.is_chain_valid H = bc.is_chain_valid H := by
  unfold Blockchain.is_chain_valid
  rw [hch]
  apply congrArg
  funext i
  cases hg : bc.chain[i]? with
  | none => rfl
  | some b =>
    show blockCheck H bc' i b = blockCheck H bc i b
    exact blockCheck_congr H bc bc' i b hch hib

theorem take_snoc_le (l : List Block) (x : Block) (i : Nat) (hi : i ≤ l.length) :
    (l ++ [x]).take i = l.take i := by
  rw [List.take_append_eq_append_take, Nat.sub_eq_zero_of_le hi]
  simp

/-- Appending one block whose own checks pass preserves chain
validity. -/
theorem chain_valid_snoc (H : String → String) (bc bc' : Blockchain) (nb : Block)
    (hch : bc'.chain = bc.chain ++ [nb])
    (hib : bc'.initial_balances = bc.initial_balances)
    (hv : bc.is_chain_valid H = true)
    (ha : Block.calculate_hash H nb = some nb.hash)
    (hp : powOk nb.hash nb.difficulty = true)
    (hlink : (bc.chain = [] ∧ nb.previous_hash = "0") ∨
             (∃ lb, bc.chain.getLast? = some lb ∧ nb.previous_hash = lb.hash))
    (hvt : ∀ txs, nb.transactions = some txs →
        txSeqOk H (replayChain (initMap bc) bc.chain) txs = true) :
    bc'.is_chain_valid H = true := by
  rw [is_chain_valid_iff]
  intro i b hb
  rw [hch] at hb
  have hlen : i < bc.chain.length + 1 := by
    have := (List.getElem?_eq_some_iff.mp hb).1
    simpa using this
  have hval : ∀ j : Nat, j ≤ bc.chain.length →
      bc'.validate_block_transactions H j = (⟨bc.chain ++ [nb], bc.difficulty,
        bc.target_block_time, bc.adjustment_interval, bc.pending_transactions,
        bc.mining_reward, bc.initial_balances⟩ : Blockchain).validate_block_transactions H j := by
    intro j _
    apply validate_congr
    · exact hib
    · rw [hch]
  by_cases hi : i < bc.chain.length
  · rw [List.getElem?_append_left hi] at hb
    have hold := (is_chain_valid_iff H bc).mp hv i b hb
    unfold blockCheck at hold ⊢
    simp only [Bool.and_eq_true] at hold ⊢
    refine ⟨⟨⟨hold.1.1.1, hold.1.1.2⟩, ?_⟩, ?_⟩
    · -- linkage
      rcases Nat.eq_zero_or_pos i with h0 | h0
      · simpa [h0] using hold.1.2
      · have h0' : ¬ i = 0 := by omega
        rw [if_neg h0'] at hold ⊢
        rw [hch, List.getElem?_append_left (by omega : i - 1 < bc.chain.length)]
        exact hold.1.2
    · -- transaction validation
      have : bc'.validate_block_transactions H i = bc.validate_block_transactions H i := by
        unfold Blockchain.validate_block_transactions
        rw [hch, List.getElem?_append_left hi, take_snoc_le _ _ _ (le_of_lt hi)]
        have him : initMap bc' = initMap bc := by unfold initMap ; rw [hib]
        rw [him]
      rw [this]
      exact hold.2
  · -- i = bc.chain.length : the new block
    have hi' : i = bc.chain.length := by omega
    subst hi'
    rw [List.getElem?_concat_length] at hb
    cases hb
    unfold blockCheck
    simp only [Bool.and_eq_true]
    refine ⟨⟨⟨?_, hp⟩, ?_⟩, ?_⟩
    · rw [ha] ; simp
    · -- linkage of the new block
      rcases hlink with ⟨hnil, hprev⟩ | ⟨lb, hlast, hprev⟩
      · have h0 : bc.chain.length = 0 := by rw [hnil] ; rfl
        rw [if_pos h0, hprev] ; simp
      · have h0 : ¬ bc.chain.length = 0 := by
          intro hc
          rw [List.length_eq_zero.mp hc] at hlast
          simp [List.getLast?] at hlast
        rw [if_neg h0, hch]
        have : bc.chain.length - 1 < bc.chain.length := by omega
        rw [List.getElem?_append_left this]
        rw [List.getLast?_eq_getElem?] at hlast
        rw [hlast, hprev]
        simp
    · -- transaction validation of the new block
      unfold Blockchain.validate_block_transactions
      rw [hch, List.getElem?_concat_length,
          take_snoc_le _ _ _ le_rfl, List.take_length]
      have him : initMap bc' = initMap bc := by unfold initMap ; rw [hib]
      rw [him]
      show (match nb.transactions with
            | none => true
            | some txs => txSeqOk H (replayChain (initMap bc) bc.chain) txs) = true
      cases ht : nb.transactions with
      | none => rfl
      | some txs => exact hvt txs ht

/-! ## Reachable ledger states and the well-formedness invariant -/

/-- One public-API operation, relating a state to the state after the
call (successful or not; the legacy `add_block` interface is used with
payloads that are not transaction-shaped lists, matching its documented
legacy-data role). -/
inductive Step (H : String → String) : Blockchain → Blockchain → Prop
  | createTx (bc : Blockchain) (s r : Option String) (a : AmountIn) (now : Int) :
      Step H bc (Blockchain.create_transaction H bc s r a now).2
  | mine (bc : Blockchain) (fuel : Nat) (m : String) (t1 t2 : Int) :
      Step H bc (Blockchain.mine_pending_transactions H fuel bc m t1 t2).2
  | addLegacy (bc : Blockchain) (fuel : Nat) (d : PyVal) (now : Int)
      (hd : txShaped d = false) :
      Step H bc (Blockchain.add_block H fuel bc d now).2

/-- States reachable from a given state through public-API calls. -/
def Reaches (H : String → String) : Blockchain → Blockchain → Prop :=
  Relation.ReflTransGen (Step H)

/-- The well-formedness invariant maintained by the public API: the
chain validates, the pending pool replays cleanly on top of the
committed balances, transaction blocks are nonempty with a cleared
legacy field, and legacy blocks do not hold transaction-shaped data. -/
def WF (H : String → String) (bc : Blockchain) : Prop :=
  bc.is_chain_valid H = true ∧
  txSeqOk H (replayChain (initMap bc) bc.chain) bc.pending_transactions = true ∧
  (∀ b ∈ bc.chain, ∀ l, b.transactions = some l → l ≠ [] ∧ b.data = .pyNone) ∧
  (∀ b ∈ bc.chain, b.transactions = none → txShaped b.data = false)

theorem txSeqOk_singleton (H : String → String) (m : String → Int) (t : Transaction) :
    txSeqOk H m [t] = txChecks H m t := by
  simp [txSeqOk]

theorem WF_set_difficulty (H : String → String) (bc : Blockchain) (d : Int)
    (h : WF H bc) : WF H { bc with difficulty := d } := by
  obtain ⟨h1, h2, h3, h4⟩ := h
  exact ⟨(is_chain_valid_congr H bc _ rfl rfl).trans h1, h2, h3, h4⟩

theorem wf_create_transaction (H : String → String) (bc : Blockchain)
    (s r : Option String) (a : AmountIn) (now : Int) (h : WF H bc) :
    WF H (Blockchain.create_transaction H bc s r a now).2 := by
  unfold Blockchain.create_transaction
  cases hc : Transaction.create H s r a none now with
  | error e => exact h
  | ok tx =>
    dsimp only
    by_cases hvd : tx.is_valid
    · rw [if_neg (by simp [hvd])]
      by_cases hbal : tx.sender ≠ "System" ∧ bc.get_balance tx.sender true < tx.amount
      · rw [if_pos hbal] ; exact h
      · rw [if_neg hbal]
        dsimp only
        obtain ⟨h1, h2, h3, h4⟩ := h
        refine ⟨?_, ?_, h3, h4⟩
        · exact (is_chain_valid_congr H bc _ rfl rfl).trans h1
        · show txSeqOk H (replayChain (initMap bc) bc.chain)
            (bc.pending_transactions ++ [tx]) = true
          rw [txSeqOk_append, h2, Bool.true_and, txSeqOk_singleton]
          unfold txChecks
          rw [Transaction.create_ok_id hc, hvd]
          simp only [Bool.true_and, beq_self_eq_true, Bool.and_eq_true, Bool.or_eq_true,
            beq_iff_eq, decide_eq_true_eq]
          by_cases hsys : tx.sender = "System"
          · exact Or.inl hsys
          · right
            have hge : ¬ bc.get_balance tx.sender true < tx.amount := by
              intro hlt ; exact hbal ⟨hsys, hlt⟩
            rw [get_balance_true] at hge
            omega
    · rw [if_pos (by simp [hvd])]
      exact h

theorem replayChain_snoc_legacy (m : String → Int) (l : List Block) (b : Block)
    (hb : b.transactions = none) : replayChain m (l ++ [b]) = replayChain m l := by
  unfold replayChain
  rw [List.foldl_append]
  simp [replayBlock, hb]

theorem wf_mine (H : String → String) (fuel : Nat) (bc : Blockchain) (m : String)
    (t1 t2 : Int) (h : WF H bc) :
    WF H (Blockchain.mine_pending_transactions H fuel bc m t1 t2).2 := by
  unfold Blockchain.mine_pending_transactions
  by_cases hpe : bc.pending_transactions = []
  · rw [if_pos hpe] ; exact h
  · rw [if_neg hpe]
    by_cases hm : m = ""
    · rw [if_pos hm] ; exact h
    · rw [if_neg hm]
      cases hadj : bc.adjust_difficulty with
      | error e => exact h
      | ok d' =>
        dsimp only
        cases hrw : Transaction.create H (some "System") (some m)
            (.num bc.mining_reward) none t1 with
        | error e => exact WF_set_difficulty H bc d' h
        | ok reward =>
          dsimp only
          cases hlast : bc.chain.getLast? with
          | none => exact WF_set_difficulty H bc d' h
          | some prev =>
            dsimp only
            cases hbc : Block.create H (prev.index + 1) t2
                (.pyList ((bc.pending_transactions ++ [reward]).map .pyTx))
                prev.hash d' with
            | error e => exact WF_set_difficulty H bc d' h
            | ok nb =>
              dsimp only
              have hne : bc.pending_transactions ++ [reward] ≠ [] := by simp
              rw [Block.create_txs (bc.pending_transactions ++ [reward]) hne] at hbc
              injection hbc with hnb
              subst hnb
              cases hml : Block.mine_loop H fuel
                  ⟨prev.index + 1, t2, some (bc.pending_transactions ++ [reward]),
                   .pyNone, prev.hash, d', 0,
                   H (intRepr (prev.index + 1) ++ intRepr t2 ++
                      txListJson (bc.pending_transactions ++ [reward]) ++ prev.hash ++
                      natRepr 0)⟩ with
              | none => exact WF_set_difficulty H bc d' h
              | some mined =>
                dsimp only
                obtain ⟨e1, e2, e3, e4, e5, e6, e7, e8⟩ := Block.mine_loop_spec hml rfl
                dsimp only at e1 e2 e3 e4 e5 e6
                obtain ⟨s', r', x, hs, hr2, hx, hrew, _, _⟩ := Transaction.create_ok hrw
                have hs' : s' = "System" := by injection hs with hs ; exact hs.symm
                refine ⟨?_, ?_, ?_, ?_⟩
                · refine chain_valid_snoc H bc _ mined rfl rfl h.1 e7 e8 ?_ ?_
                  · exact Or.inr ⟨prev, hlast, e5⟩
                  · intro txs htxs
                    rw [e3] at htxs
                    injection htxs with htxs
                    subst htxs
                    rw [txSeqOk_append, h.2.1, Bool.true_and, txSeqOk_singleton]
                    unfold txChecks
                    rw [Transaction.create_ok_id hrw, Transaction.create_ok_valid hrw]
                    subst hrew
                    subst hs'
                    simp
                · show txSeqOk H _ ([] : List Transaction) = true
                  rfl
                · intro b hb l hl
                  rcases List.mem_append.mp hb with hmem | hmem
                  · exact h.2.2.1 b hmem l hl
                  · have hbm := List.mem_singleton.mp hmem
                    subst hbm
                    rw [e3] at hl
                    injection hl with hl
                    exact ⟨hl ▸ hne, e4⟩
                · intro b hb hnone
                  rcases List.mem_append.mp hb with hmem | hmem
                  · exact h.2.2.2 b hmem hnone
                  · have hbm := List.mem_singleton.mp hmem
                    subst hbm
                    rw [e3] at hnone
                    exact absurd hnone (by simp)

theorem wf_add (H : String → String) (fuel : Nat) (bc : Blockchain) (d : PyVal)
    (now : Int) (hd : txShaped d = false) (h : WF H bc) :
    WF H (Blockchain.add_block H fuel bc d now).2 := by
  unfold Blockchain.add_block
  cases hadj : bc.adjust_difficulty with
  | error e => exact h
  | ok d' =>
    dsimp only
    cases hlast : bc.chain.getLast? with
    | none => exact WF_set_difficulty H bc d' h
    | some prev =>
      dsimp only
      cases hbc : Block.create H (prev.index + 1) now d prev.hash d' with
      | error e => exact WF_set_difficulty H bc d' h
      | ok nb =>
        dsimp only
        cases hml : Block.mine_loop H fuel nb with
        | none => exact WF_set_difficulty H bc d' h
        | some mined =>
          dsimp only
          obtain ⟨hi1, hi2, hi3, hi4, hi5, hcalc⟩ := Block.created_ok hbc
          obtain ⟨hl1, hl2⟩ := Block.create_legacy hd hbc
          obtain ⟨e1, e2, e3, e4, e5, e6, e7, e8⟩ := Block.mine_loop_spec hml hcalc
          refine ⟨?_, ?_, ?_, ?_⟩
          · refine chain_valid_snoc H bc _ mined rfl rfl h.1 e7 e8 ?_ ?_
            · exact Or.inr ⟨prev, hlast, by rw [e5, hi3]⟩
            · intro txs htxs
              rw [e3, hl1] at htxs
              exact absurd htxs (by simp)
          · show txSeqOk H (replayChain (initMap bc) (bc.chain ++ [mined]))
              bc.pending_transactions = true
            rw [replayChain_snoc_legacy _ _ _ (by rw [e3, hl1])]
            exact h.2.1
          · intro b hb l hl
            rcases List.mem_append.mp hb with hmem | hmem
            · exact h.2.2.1 b hmem l hl
            · have hbm := List.mem_singleton.mp hmem
              subst hbm
              rw [e3, hl1] at hl
              exact absurd hl (by simp)
          · intro b hb hnone
            rcases List.mem_append.mp hb with hmem | hmem
            · exact h.2.2.2 b hmem hnone
            · have hbm := List.mem_singleton.mp hmem
              subst hbm
              rw [e4, hl2]
              exact hd

theorem wf_init (H : String → String) (fuel : Nat) (d : Int) (tbt : ℚ) (ai : Int)
    (ib : List (String × Int)) (t1 t2 : Int) (bc0 : Blockchain)
    (h : Blockchain.create H fuel d tbt ai ib t1 t2 = some bc0) : WF H bc0 := by
  unfold Blockchain.create at h
  cases hg : Transaction.create H (some "System") (some "Genesis") (.num 0) none t1 with
  | error e => rw [hg] at h ; simp at h
  | ok gtx =>
    rw [hg] at h
    dsimp only at h
    rw [show (PyVal.pyList [PyVal.pyTx gtx]) = (.pyList ([gtx].map .pyTx)) from rfl,
        Block.create_txs [gtx] (by simp)] at h
    dsimp only at h
    cases hml : Block.mine_loop H fuel
        ⟨0, t2, some [gtx], .pyNone, "0", d, 0,
         H (intRepr 0 ++ intRepr t2 ++ txListJson [gtx] ++ "0" ++ natRepr 0)⟩ with
    | none => rw [hml] at h ; simp at h
    | some genesis =>
      rw [hml] at h
      simp only [Option.some.injEq] at h
      subst h
      obtain ⟨e1, e2, e3, e4, e5, e6, e7, e8⟩ := Block.mine_loop_spec hml rfl
      dsimp only at e1 e2 e3 e4 e5 e6
      obtain ⟨s', r', x, hs, hr2, hx, hrew, _, _⟩ := Transaction.create_ok hg
      have hs' : s' = "System" := by injection hs with hs ; exact hs.symm
      refine ⟨?_, ?_, ?_, ?_⟩
      · refine chain_valid_snoc H ⟨[], d, tbt, ai, [], 10, ib⟩ _ genesis rfl rfl ?_ e7 e8 ?_ ?_
        · rfl
        · exact Or.inl ⟨rfl, e5⟩
        · intro txs htxs
          rw [e3] at htxs
          injection htxs with htxs
          subst htxs
          rw [txSeqOk_singleton]
          unfold txChecks
          rw [Transaction.create_ok_id hg, Transaction.create_ok_valid hg]
          subst hrew
          subst hs'
          simp
      · show txSeqOk H _ ([] : List Transaction) = true
        rfl
      · intro b hb l hl
        have hbm := List.mem_singleton.mp hb
        subst hbm
        rw [e3] at hl
        injection hl with hl
        exact ⟨hl ▸ (by simp : ([gtx] : List Transaction) ≠ []), e4⟩
      · intro b hb hnone
        have hbm := List.mem_singleton.mp hb
        subst hbm
        rw [e3] at hnone
        exact absurd hnone (by simp)

theorem wf_step (H : String → String) (bc bc' : Blockchain) (hs : Step H bc bc')
    (h : WF H bc) : WF H bc' := by
  cases hs with
  | createTx s r a now => exact wf_create_transaction H bc s r a now h
  | mine fuel m t1 t2 => exact wf_mine H fuel bc m t1 t2 h
  | addLegacy fuel d now hd => exact wf_add H fuel bc d now hd h

theorem wf_reaches (H : String → String) (bc0 bc : Blockchain) (h0 : WF H bc0)
    (hr : Reaches H bc0 bc) : WF H bc := by
  induction hr with
  | refl => exact h0
  | tail _ hs ih => exact wf_step H _ _ hs ih

/-- Every committed block of a well-formed ledger passes
`validate_block_transactions`. -/
theorem wf_validate (H : String → String) (bc : Blockchain) (h : WF H bc) :
    ∀ i, i < bc.chain.length → bc.validate_block_transactions H i = true := by
  intro i hi
  have hb : bc.chain[i]? = some bc.chain[i] := List.getElem?_eq_getElem hi
  have := (is_chain_valid_iff H bc).mp h.1 i bc.chain[i] hb
  unfold blockCheck at this
  simp only [Bool.and_eq_true] at this
  exact this.2

/-- A concrete injective digest used to instantiate the ideal hash `H`
in witnesses: prefix the input with a zero hex digit (so every hash
meets a difficulty-1 proof-of-work target immediately). -/
def zeroHash : String → String := fun s => "0" ++ s

theorem zeroHash_inj : Function.Injective zeroHash := by
  intro a b h
  have h2 := congrArg String.data h
  simp only [zeroHash, String.data_append] at h2
  exact String.ext (List.append_cancel_left h2)

/-! ## Serialization documents (`to_dict` / `export_to_file` /
`import_from_file`)

The persisted JSON document is modelled structurally: `export_to_file`
writes `to_dict()` and `import_from_file` parses it back, and
`json.dump`/`json.load` round-trip the document verbatim, so the file
is modelled as the structured document itself. -/

structure TxDoc where
  sender : String
  receiver : String
  amount : Int
  timestamp : Int
  transaction_id : String

structure BlockDoc where
  index : Int
  timestamp : Int
  previous_hash : String
  hash : String
  nonce : Nat
  difficulty : Int
  transactions : Option (List TxDoc)
  data : PyVal

structure ChainDoc where
  difficulty : Int
  target_block_time : ℚ
  adjustment_interval : Int
  mining_reward : Int
  initial_balances : List (String × Int)
  blocks : List BlockDoc
  pending_transactions : List TxDoc

def txToDoc (t : Transaction) : TxDoc :=
  ⟨t.sender, t.receiver, t.amount, t.timestamp, t.transaction_id⟩

def blockToDoc (b : Block) : BlockDoc :=
  ⟨b.index, b.timestamp, b.previous_hash, b.hash, b.nonce, b.difficulty,
   b.transactions.map (List.map txToDoc), b.data⟩

/-- `Blockchain.to_dict`. -/
def Blockchain.to_dict (bc : Blockchain) : ChainDoc :=
  ⟨bc.difficulty, bc.target_block_time, bc.adjustment_interval, bc.mining_reward,
   bc.initial_balances, bc.chain.map blockToDoc, bc.pending_transactions.map txToDoc⟩

/-- `Blockchain.export_to_file`: dump `to_dict()` to the file. -/
def Blockchain.export_to_file (bc : Blockchain) : ChainDoc := bc.to_dict

/-- Transaction reconstruction inside `import_from_file`: the validating
constructor runs on the persisted fields, then timestamp and id are
restored verbatim. Any exception becomes `ImportExportError`. -/
def importTx (H : String → String) (now : Int) (td : TxDoc) : Except Err Transaction :=
  match Transaction.create H (some td.sender) (some td.receiver) (.num td.amount)
      none now with
  | .error _ => .error .importExportE
  | .ok t => .ok { t with timestamp := td.timestamp, transaction_id := td.transaction_id }

/-- Block reconstruction inside `import_from_file`: rebuild the
transactions (if any), pass them — or the legacy `data` — through the
`Block` constructor, then restore hash and nonce verbatim (blocks are
not re-mined). -/
def importBlock (H : String → String) (now : Int) (bd : BlockDoc) : Except Err Block :=
  match bd.transactions with
  | some tds =>
    match tds.mapM (importTx H now) with
    | .error e => .error e
    | .ok txs =>
      match Block.create H bd.index bd.timestamp (.pyList (txs.map .pyTx))
          bd.previous_hash bd.difficulty with
      | .error _ => .error .importExportE
      | .ok b => .ok { b with hash := bd.hash, nonce := bd.nonce }
  | none =>
    match Block.create H bd.index bd.timestamp bd.data bd.previous_hash bd.difficulty with
    | .error _ => .error .importExportE
    | .ok b => .ok { b with hash := bd.hash, nonce := bd.nonce }

/-- `Blockchain.import_from_file`: construct a ledger with the persisted
policy parameters (mining a throwaway genesis block), replace its chain
and pool with the reconstructed ones, and restore the mining reward. -/
def Blockchain.import_from_file (H : String → String) (fuel : Nat) (now : Int)
    (doc : ChainDoc) : Except Err Blockchain :=
  match Blockchain.create H fuel doc.difficulty doc.target_block_time
      doc.adjustment_interval doc.initial_balances now now with
  | none => .error .importExportE
  | some bc0 =>
    match doc.blocks.mapM (importBlock H now) with
    | .error e => .error e
    | .ok blocks =>
      match doc.pending_transactions.mapM (importTx H now) with
      | .error e => .error e
      | .ok pend =>
        .ok { bc0 with
              chain := blocks
              pending_transactions := pend
              mining_reward := doc.mining_reward }

/-! ## Round-trip of a well-formed ledger through the document form -/

theorem is_valid_iff (t : Transaction) :
    t.is_valid = true ↔
      ¬(t.sender = t.receiver) ∧ ¬(t.amount ≤ 0 ∧ t.sender ≠ "System") := by
  unfold Transaction.is_valid
  split_ifs with h1 h2
  · simp [h1]
  · simp [h1, h2]
  · simp [h1, h2]

theorem importTx_roundtrip (H : String → String) (now : Int) (t : Transaction)
    (hv : t.is_valid = true) : importTx H now (txToDoc t) = .ok t := by
  obtain ⟨hsr, hamt⟩ := (is_valid_iff t).mp hv
  unfold importTx txToDoc Transaction.create
  dsimp only
  rw [if_neg hamt, if_neg hsr]

theorem mapM_map_ok {α β : Type} (f : α → β) (g : β → Except Err α) (l : List α)
    (h : ∀ x ∈ l, g (f x) = .ok x) : (l.map f).mapM g = .ok l := by
  induction l with
  | nil => rfl
  | cons x xs ih =>
    rw [List.map_cons, List.mapM_cons, h x (List.mem_cons_self x xs),
        ih (fun y hy => h y (List.mem_cons_of_mem x hy))]
    rfl

theorem txSeqOk_mem (H : String → String) : ∀ (l : List Transaction) (m : String → Int),
    txSeqOk H m l = true →
    ∀ t ∈ l, t.is_valid = true ∧ t.transaction_id = t.calculate_hash H := by
  intro l
  induction l with
  | nil => intro m _ t ht ; simp at ht
  | cons x xs ih =>
    intro m h t ht
    rw [txSeqOk] at h
    simp only [Bool.and_eq_true] at h
    rcases List.mem_cons.mp ht with h1 | h1
    · subst h1
      have hch := h.1
      unfold txChecks at hch
      simp only [Bool.and_eq_true, beq_iff_eq] at hch
      exact ⟨hch.1.1, hch.1.2⟩
    · exact ih _ h.2 t h1

/-- The per-block transaction-check fold of a committed block of a
well-formed ledger. -/
theorem wf_block_txSeqOk (H : String → String) (bc : Blockchain) (hwf : WF H bc)
    (i : Nat) (b : Block) (hgi : bc.chain[i]? = some b) (txs : List Transaction)
    (htx : b.transactions = some txs) :
    txSeqOk H (replayChain (initMap bc) (bc.chain.take i)) txs = true := by
  have hbch := (is_chain_valid_iff H bc).mp hwf.1 i b hgi
  unfold blockCheck at hbch
  simp only [Bool.and_eq_true] at hbch
  have hval := hbch.2
  unfold Blockchain.validate_block_transactions at hval
  rw [hgi] at hval
  simp only at hval
  rw [htx] at hval
  exact hval

theorem importBlock_roundtrip (H : String → String) (now : Int) (bc : Blockchain)
    (hwf : WF H bc) (b : Block) (hb : b ∈ bc.chain) :
    importBlock H now (blockToDoc b) = .ok b := by
  obtain ⟨i, hlt, hget⟩ := List.getElem_of_mem hb
  have hgi : bc.chain[i]? = some b := by rw [List.getElem?_eq_getElem hlt, hget]
  have hbch := (is_chain_valid_iff H bc).mp hwf.1 i b hgi
  unfold blockCheck at hbch
  simp only [Bool.and_eq_true] at hbch
  have hcalc : Block.calculate_hash H b = some b.hash := by
    have hc0 := hbch.1.1.1
    cases hc : Block.calculate_hash H b with
    | none => rw [hc] at hc0 ; simp at hc0
    | some c =>
      rw [hc] at hc0
      simp only [beq_iff_eq] at hc0
      rw [hc0]

  cases htx : b.transactions with
  | some txs =>
    obtain ⟨hne, hdat⟩ := hwf.2.2.1 b hb txs htx
    have hseq := wf_block_txSeqOk H bc hwf i b hgi txs htx
    have hall := txSeqOk_mem H txs _ hseq
    unfold importBlock blockToDoc
    rw [htx]
    dsimp only [Option.map_some']
    rw [mapM_map_ok txToDoc (importTx H now) txs (fun t ht => importTx_roundtrip H now t (hall t ht).1)]
    dsimp only
    rw [Block.create_txs txs hne]
    dsimp only
    obtain ⟨bi, bt, btx, bd, bp, bdf, bn, bh⟩ := b
    simp only at htx hdat
    subst htx
    subst hdat
    rfl
  | none =>
    have hshape := hwf.2.2.2 b hb htx
    have hser : ∃ s, legacySerialize b.data = some s := by
      unfold Block.calculate_hash blockContent at hcalc
      unfold dataString at hcalc
      rw [htx] at hcalc
      cases hls : legacySerialize b.data with
      | none => rw [hls] at hcalc ; simp at hcalc
      | some s => exact ⟨s, rfl⟩
    obtain ⟨s, hls⟩ := hser
    unfold importBlock blockToDoc
    rw [htx]
    dsimp only [Option.map_none']
    unfold Block.create
    rw [classify_legacy hshape]
    dsimp only
    have hch : Block.calculate_hash H
        ⟨b.index, b.timestamp, none, b.data, b.previous_hash, b.difficulty, 0, ""⟩ =
        some (H (intRepr b.index ++ intRepr b.timestamp ++ s ++ b.previous_hash ++ natRepr 0)) := by
      unfold Block.calculate_hash blockContent dataString
      simp only
      rw [hls]
      rfl
    rw [hch]
    dsimp only
    obtain ⟨bi, bt, btx, bd, bp, bdf, bn, bh⟩ := b
    simp only at htx
    subst htx
    rfl

theorem Blockchain.create_fields {H : String → String} {fuel : Nat} {d : Int} {tbt : ℚ}
    {ai : Int} {ib : List (String × Int)} {t1 t2 : Int} {bc0 : Blockchain}
    (h : Blockchain.create H fuel d tbt ai ib t1 t2 = some bc0) :
    bc0.difficulty = d ∧ bc0.target_block_time = tbt ∧
      bc0.adjustment_interval = ai ∧ bc0.initial_balances = ib := by
  unfold Blockchain.create at h
  cases hg : Transaction.create H (some "System") (some "Genesis") (.num 0) none t1 with
  | error e => rw [hg] at h ; simp at h
  | ok gtx =>
    rw [hg] at h
    dsimp only at h
    cases hbc : Block.create H 0 t2 (.pyList [.pyTx gtx]) "0" d with
    | error e => rw [hbc] at h ; simp at h
    | ok gb =>
      rw [hbc] at h
      dsimp only at h
      cases hml : Block.mine_loop H fuel gb with
      | none => rw [hml] at h ; simp at h
      | some genesis =>
        rw [hml] at h
        simp only [Option.some.injEq] at h
        subst h
        exact ⟨rfl, rfl, rfl, rfl⟩

/-- Importing the exported document of a well-formed ledger, when it
succeeds, reproduces the ledger exactly. -/
theorem import_roundtrip (H : String → String) (fuel : Nat) (now : Int)
    (bc : Blockchain) (hwf : WF H bc) (bc' : Blockchain)
    (him : Blockchain.import_from_file H fuel now bc.to_dict = .ok bc') : bc' = bc := by
  unfold Blockchain.import_from_file at him
  dsimp only [Blockchain.to_dict] at him
  cases hg : Blockchain.create H fuel bc.difficulty bc.target_block_time
      bc.adjustment_interval bc.initial_balances now now with
  | none => rw [hg] at him ; simp at him
  | some bci =>
    rw [hg] at him
    dsimp only at him
    rw [mapM_map_ok blockToDoc (importBlock H now) bc.chain
        (fun b hb => importBlock_roundtrip H now bc hwf b hb)] at him
    dsimp only at him
    rw [mapM_map_ok txToDoc (importTx H now) bc.pending_transactions
        (fun t ht => importTx_roundtrip H now t (txSeqOk_mem H _ _ hwf.2.1 t ht).1)] at him
    dsimp only at him
    simp only [Except.ok.injEq] at him
    obtain ⟨f1, f2, f3, f4⟩ := Blockchain.create_fields hg
    subst him
    obtain ⟨ch, df, tb, aj, pd, mr, ibs⟩ := bc
    simp only at f1 f2 f3 f4
    rw [f1, f2, f3, f4]

/-! ## Claim theorems -/

/-- **C2** (no-overdraft invariant): in every ledger state reachable by
`create_transaction` and `mine_pending_transactions` calls (plus the
legacy `add_block` with legacy payloads) from a fresh ledger with
non-negative initial balances, `validate_block_transactions` succeeds on
every committed block — replaying the committed transactions in order
never drives a non-"System" sender's running balance negative — and
any successful mining of the pending pool yields a state with the same
property. -/
theorem no_overdraft_reachable (H : String → String) (fuel : Nat) (d : Int) (tbt : ℚ)
    (ai : Int) (ib : List (String × Int)) (t1 t2 : Int) (bc0 bc : Blockchain)
    (hnn : ∀ p ∈ ib, 0 ≤ p.2)
    (h0 : Blockchain.create H fuel d tbt ai ib t1 t2 = some bc0)
    (hr : Reaches H bc0 bc) :
    (∀ i, i < bc.chain.length → bc.validate_block_transactions H i = true) ∧
    (∀ fuel' m t1' t2' b bc',
      Blockchain.mine_pending_transactions H fuel' bc m t1' t2' = (.ok (some b), bc') →
      ∀ i, i < bc'.chain.length → bc'.validate_block_transactions H i = true) := by
  have hwf := wf_reaches H bc0 bc (wf_init H fuel d tbt ai ib t1 t2 bc0 h0) hr
  refine ⟨wf_validate H bc hwf, ?_⟩
  intro fuel' m t1' t2' b bc' hm
  have hstep : Step H bc (Blockchain.mine_pending_transactions H fuel' bc m t1' t2').2 :=
    Step.mine bc fuel' m t1' t2'
  rw [hm] at hstep
  exact wf_validate H bc' (wf_step H bc bc' hstep hwf)

/-- A fallback ledger value used only to totalise witness accessors. -/
def junkChain : Blockchain := ⟨[], 0, 0, 0, [], 0, []⟩

/-- The concrete fresh ledger (difficulty 1, Alice = 100) under the
concrete injective digest `zeroHash`, used by witnesses. -/
def bcW : Blockchain :=
  (Blockchain.create zeroHash 1 1 10 5 [("Alice", 100)] 0 0).getD junkChain

/-- Witness for **C2**: the concrete fresh ledger under `zeroHash`. -/
theorem no_overdraft_reachable_witness :
    Blockchain.create zeroHash 1 1 10 5 [("Alice", 100)] 0 0 = some bcW ∧
      bcW.validate_block_transactions zeroHash 0 = true :=
  ⟨rfl,
   (no_overdraft_reachable zeroHash 1 1 10 5 [("Alice", 100)] 0 0 bcW bcW
     (by decide) rfl Relation.ReflTransGen.refl).1 0 (by decide)⟩

/-- **C3** (export/import round trip): for a ledger built through the
public API, importing the exported document succeeds only with a ledger
that is chain-valid, has the same `get_balance` at every address, and is
block-for-block (hence hash-for-hash) equal to the original — blocks
are not re-mined on import. -/
theorem export_import_roundtrip (H : String → String) (fuel : Nat) (d : Int) (tbt : ℚ)
    (ai : Int) (ib : List (String × Int)) (t1 t2 : Int) (bc0 bc : Blockchain)
    (fuel2 : Nat) (now : Int) (bc' : Blockchain)
    (h0 : Blockchain.create H fuel d tbt ai ib t1 t2 = some bc0)
    (hr : Reaches H bc0 bc)
    (him : Blockchain.import_from_file H fuel2 now bc.export_to_file = .ok bc') :
    bc'.is_chain_valid H = true ∧
      (∀ a, bc'.get_balance a false = bc.get_balance a false) ∧
      bc'.chain = bc.chain := by
  have hwf := wf_reaches H bc0 bc (wf_init H fuel d tbt ai ib t1 t2 bc0 h0) hr
  have heq := import_roundtrip H fuel2 now bc hwf bc' him
  subst heq
  exact ⟨hwf.1, fun a => rfl, rfl⟩

/-- The reimport of the exported concrete fresh ledger. -/
def bcW3 : Blockchain :=
  (Blockchain.import_from_file zeroHash 1 0
    ((Blockchain.create zeroHash 1 1 10 5 [("Alice", 100)] 0 0).getD
      junkChain).export_to_file).toOption.getD junkChain

/-- Witness for **C3**: the concrete fresh ledger round-trips through
its document form under `zeroHash`. -/
theorem export_import_roundtrip_witness :
    Blockchain.create zeroHash 1 1 10 5 [("Alice", 100)] 0 0 = some bcW ∧
      Blockchain.import_from_file zeroHash 1 0 bcW.export_to_file = .ok bcW3 ∧
      bcW3.is_chain_valid zeroHash = true ∧ bcW3.chain = bcW.chain ∧
      bcW3.get_balance "Alice" false = bcW.get_balance "Alice" false := by
  refine ⟨rfl, rfl, ?_⟩
  have h := export_import_roundtrip zeroHash 1 1 10 5 [("Alice", 100)] 0 0 bcW bcW 1 0
    bcW3 rfl Relation.ReflTransGen.refl rfl
  exact ⟨h.1, h.2.2, h.2.1 "Alice"⟩

/-! ## Difficulty dynamics -/

theorem blockDeltas_length (l : List Block) : (blockDeltas l).length = l.length - 1 := by
  unfold blockDeltas
  rw [List.length_map, List.length_zip, List.length_tail]
  omega

/-- From an in-range difficulty, `adjust_difficulty` moves by at most
one step and stays inside `[1, 8]`. -/
theorem adjust_range (bc : Blockchain) (h1 : 1 ≤ bc.difficulty) (h8 : bc.difficulty ≤ 8) :
    ∀ d', bc.adjust_difficulty = .ok d' →
      (d' - bc.difficulty).natAbs ≤ 1 ∧ 1 ≤ d' ∧ d' ≤ 8 := by
  intro d' h
  unfold Blockchain.adjust_difficulty at h
  by_cases c1 : bc.adjustment_interval ≤ 0
  · rw [if_pos c1] at h ; exact Except.noConfusion h
  · rw [if_neg c1] at h
    by_cases c2 : (bc.chain.length : Int) % bc.adjustment_interval ≠ 0
    · rw [if_pos c2] at h ; injection h with h ; omega
    · rw [if_neg c2] at h
      by_cases c3 : (bc.chain.length : Int) < bc.adjustment_interval
      · rw [if_pos c3] at h ; injection h with h ; omega
      · rw [if_neg c3] at h
        dsimp only at h
        by_cases c4 : (blockDeltas (bc.chain.drop
            (bc.chain.length - bc.adjustment_interval.toNat))).length = 0
        · rw [if_pos c4] at h ; exact Except.noConfusion h
        · rw [if_neg c4] at h
          by_cases c5 : bc.target_block_time = 0
          · rw [if_pos c5] at h ; exact Except.noConfusion h
          · rw [if_neg c5] at h
            split_ifs at h <;> (injection h with h ; omega)

theorem import_difficulty {H : String → String} {fuel : Nat} {now : Int}
    {doc : ChainDoc} {bc0 : Blockchain}
    (h : Blockchain.import_from_file H fuel now doc = .ok bc0) :
    bc0.difficulty = doc.difficulty := by
  unfold Blockchain.import_from_file at h
  cases hg : Blockchain.create H fuel doc.difficulty doc.target_block_time
      doc.adjustment_interval doc.initial_balances now now with
  | none => rw [hg] at h ; simp at h
  | some bci =>
    rw [hg] at h
    dsimp only at h
    cases hb : doc.blocks.mapM (importBlock H now) with
    | error e => rw [hb] at h ; simp at h
    | ok blocks =>
      rw [hb] at h
      dsimp only at h
      cases hp : doc.pending_transactions.mapM (importTx H now) with
      | error e => rw [hp] at h ; simp at h
      | ok pend =>
        rw [hp] at h
        simp only [Except.ok.injEq] at h
        subst h
        exact (Blockchain.create_fields hg).1

/-- The difficulty after any single public-API call is either unchanged
or the result of `adjust_difficulty` on the pre-state. -/
theorem step_difficulty (H : String → String) (bc bc' : Blockchain) (hs : Step H bc bc') :
    bc'.difficulty = bc.difficulty ∨ bc.adjust_difficulty = .ok bc'.difficulty := by
  cases hs with
  | createTx s r a now =>
    left
    unfold Blockchain.create_transaction
    cases hc : Transaction.create H s r a none now with
    | error e => rfl
    | ok tx =>
      dsimp only
      split_ifs <;> rfl
  | mine fuel m t1 t2 =>
    unfold Blockchain.mine_pending_transactions
    by_cases hpe : bc.pending_transactions = []
    · rw [if_pos hpe] ; left ; rfl
    · rw [if_neg hpe]
      by_cases hm : m = ""
      · rw [if_pos hm] ; left ; rfl
      · rw [if_neg hm]
        cases hadj : bc.adjust_difficulty with
        | error e => left ; rfl
        | ok d' =>
          right
          dsimp only
          cases hrw : Transaction.create H (some "System") (some m)
              (.num bc.mining_reward) none t1 with
          | error e => rfl
          | ok reward =>
            dsimp only
            cases hlast : bc.chain.getLast? with
            | none => rfl
            | some prev =>
              dsimp only
              cases hbc : Block.create H (prev.index + 1) t2
                  (.pyList ((bc.pending_transactions ++ [reward]).map .pyTx))
                  prev.hash d' with
              | error e => rfl
              | ok nb =>
                dsimp only
                cases hml : Block.mine_loop H fuel nb with
                | none => rfl
                | some mined => rfl
  | addLegacy fuel dd now hd =>
    unfold Blockchain.add_block
    cases hadj : bc.adjust_difficulty with
    | error e => left ; rfl
    | ok d' =>
      right
      dsimp only
      cases hlast : bc.chain.getLast? with
      | none => rfl
      | some prev =>
        dsimp only
        cases hbc : Block.create H (prev.index + 1) now dd prev.hash d' with
        | error e => rfl
        | ok nb =>
          dsimp only
          cases hml : Block.mine_loop H fuel nb with
          | none => rfl
          | some mined => rfl

/-- A ledger whose life began with an in-range difficulty: fresh
construction or import of a document with difficulty in `[1, 8]`. -/
def startInRange (H : String → String) (bc0 : Blockchain) : Prop :=
  (∃ fuel d tbt ai ib t1 t2, 1 ≤ d ∧ d ≤ 8 ∧
     Blockchain.create H fuel d tbt ai ib t1 t2 = some bc0) ∨
  (∃ fuel now doc, 1 ≤ doc.difficulty ∧ doc.difficulty ≤ 8 ∧
     Blockchain.import_from_file H fuel now doc = .ok bc0)

/-- **C5** (amended): starting from a construction or import whose
difficulty argument lies in `[1, 8]`, every reachable state's difficulty
satisfies `1 ≤ difficulty ≤ 8`, and each `adjust_difficulty` call moves
it by at most one step (staying in range). The bound does not hold for
arbitrary construction arguments — see the counterexample. -/
theorem difficulty_bounds_amended (H : String → String) (bc0 bc : Blockchain)
    (h0 : startInRange H bc0) (hr : Reaches H bc0 bc) :
    (1 ≤ bc.difficulty ∧ bc.difficulty ≤ 8) ∧
    (∀ d', bc.adjust_difficulty = .ok d' →
       (d' - bc.difficulty).natAbs ≤ 1 ∧ 1 ≤ d' ∧ d' ≤ 8) := by
  have hinv : 1 ≤ bc.difficulty ∧ bc.difficulty ≤ 8 := by
    induction hr with
    | refl =>
      rcases h0 with ⟨fuel, d, tbt, ai, ib, t1, t2, hd1, hd8, hc⟩ |
        ⟨fuel, now, doc, hd1, hd8, hc⟩
      · obtain ⟨f1, _, _, _⟩ := Blockchain.create_fields hc
        omega
      · have := import_difficulty hc
        omega
    | tail hr' hs ih =>
      rcases step_difficulty H _ _ hs with heq | hadj
      · rw [heq] ; exact ih
      · exact (adjust_range _ ih.1 ih.2 _ hadj).2
  exact ⟨hinv, fun d' h => adjust_range bc hinv.1 hinv.2 d' h⟩

/-- The ledger constructed with the out-of-range difficulty `0`. -/
def bcW5a : Blockchain := (Blockchain.create zeroHash 1 0 10 5 [] 0 0).getD junkChain

/-- Counterexample for **C5** as stated: constructing a ledger with
`difficulty=0` succeeds and leaves the difficulty at 0, violating
`1 ≤ difficulty`. -/
theorem difficulty_bounds_counterexample :
    Blockchain.create zeroHash 1 0 10 5 [] 0 0 = some bcW5a ∧
      ¬(1 ≤ bcW5a.difficulty) :=
  ⟨rfl, by decide⟩

/-- The ledger constructed with the in-range difficulty `1`. -/
def bcW5b : Blockchain := (Blockchain.create zeroHash 1 1 10 5 [] 0 0).getD junkChain

/-- Witness for **C5** (amended) at a concrete in-range construction. -/
theorem difficulty_bounds_witness :
    Blockchain.create zeroHash 1 1 10 5 [] 0 0 = some bcW5b ∧
      1 ≤ bcW5b.difficulty ∧ bcW5b.difficulty ≤ 8 := by
  refine ⟨rfl, ?_⟩
  exact (difficulty_bounds_amended zeroHash bcW5b bcW5b
    (Or.inl ⟨1, 1, 10, 5, [], 0, 0, by decide, by decide, rfl⟩)
    Relation.ReflTransGen.refl).1

/-- The difficulty-retargeting rule exactly as the specification words
it: recalculate only at interval boundaries with enough blocks, average
the consecutive inter-block timestamp deltas of the most recent
`adjustment_interval` blocks, divide by the target block time, and move
one step (capped to `[1, 8]`) when the ratio leaves the `[0.75, 1.5]`
band. -/
def specAdjustDifficulty (bc : Blockchain) : Int :=
  if (bc.chain.length : Int) % bc.adjustment_interval = 0 ∧
      bc.adjustment_interval ≤ (bc.chain.length : Int) then
    let recent := bc.chain.drop (bc.chain.length - bc.adjustment_interval.toNat)
    let deltas := blockDeltas recent
    let ratio : ℚ :=
      (((deltas.foldl (· + ·) 0 : Int) : ℚ) / (deltas.length : ℚ)) / bc.target_block_time
    if ratio < 3 / 4 then min 8 (bc.difficulty + 1)
    else if ratio > 3 / 2 then max 1 (bc.difficulty - 1)
    else bc.difficulty
  else bc.difficulty

/-- **C6**: for non-degenerate policy parameters (an interval of at
least 2 and a nonzero target block time), `adjust_difficulty` computes
exactly the specified retargeting rule. -/
theorem adjust_matches_spec (bc : Blockchain) (hai : 2 ≤ bc.adjustment_interval)
    (htbt : bc.target_block_time ≠ 0) :
    bc.adjust_difficulty = .ok (specAdjustDifficulty bc) := by
  unfold Blockchain.adjust_difficulty specAdjustDifficulty
  rw [if_neg (by omega : ¬ bc.adjustment_interval ≤ 0)]
  by_cases h1 : (bc.chain.length : Int) % bc.adjustment_interval = 0
  · rw [if_neg (by simp [h1])]
    by_cases h2 : (bc.chain.length : Int) < bc.adjustment_interval
    · have hng : ¬ ((bc.chain.length : Int) % bc.adjustment_interval = 0 ∧
          bc.adjustment_interval ≤ (bc.chain.length : Int)) := by
        intro hc ; omega
      rw [if_pos h2, if_neg hng]
    · have hg : (bc.chain.length : Int) % bc.adjustment_interval = 0 ∧
          bc.adjustment_interval ≤ (bc.chain.length : Int) := ⟨h1, not_lt.mp h2⟩
      rw [if_neg h2, if_pos hg]
      dsimp only
      have hlen : (blockDeltas (bc.chain.drop
          (bc.chain.length - bc.adjustment_interval.toNat))).length =
          bc.adjustment_interval.toNat - 1 := by
        rw [blockDeltas_length, List.length_drop]
        omega
      have hne0 : ¬ ((blockDeltas (bc.chain.drop
          (bc.chain.length - bc.adjustment_interval.toNat))).length = 0) := by
        rw [hlen] ; omega
      rw [if_neg hne0, if_neg htbt]
      split_ifs <;> rfl
  · have hng : ¬ ((bc.chain.length : Int) % bc.adjustment_interval = 0 ∧
        bc.adjustment_interval ≤ (bc.chain.length : Int)) := by
      intro hc ; exact h1 hc.1
    rw [if_pos (by exact h1), if_neg hng]

/-- Witness for **C6**: a concrete five-block chain at an interval
boundary whose fast block times push the difficulty up one step. -/
def bcC6 : Blockchain :=
  ⟨[⟨0, 0, none, .pyNone, "", 1, 0, ""⟩, ⟨1, 1, none, .pyNone, "", 1, 0, ""⟩,
    ⟨2, 2, none, .pyNone, "", 1, 0, ""⟩, ⟨3, 3, none, .pyNone, "", 1, 0, ""⟩,
    ⟨4, 4, none, .pyNone, "", 1, 0, ""⟩], 3, 10, 5, [], 10, []⟩

theorem adjust_matches_spec_witness :
    bcC6.adjust_difficulty = .ok (specAdjustDifficulty bcC6) ∧
      specAdjustDifficulty bcC6 = 4 := by
  refine ⟨adjust_matches_spec bcC6 (by decide) (by norm_num [bcC6]), ?_⟩
  unfold specAdjustDifficulty
  rw [if_pos (by decide)]
  dsimp only
  have hdel : blockDeltas (bcC6.chain.drop
      (bcC6.chain.length - bcC6.adjustment_interval.toNat)) = [1, 1, 1, 1] := rfl
  rw [hdel]
  rw [if_pos (by norm_num [bcC6])]
  decide

/-- **C4** (amended): `mine_pending_transactions` returns the
"nothing to mine" signal on an empty pool without touching the state;
fails with a validation error on a non-empty pool and empty miner
address, again without touching the state; and whenever it returns a
mined block — which additionally requires the reward transaction to be
constructible (`minerAddress ≠ "System"` would otherwise abort with
`MiningError`) and the proof-of-work search to finish — the block's
transaction list is the entire pending pool in order followed by one
System→miner reward of amount `mining_reward`, the block is appended,
the pool is cleared, and the difficulty is the `adjust_difficulty`
result. -/
theorem mine_contract (H : String → String) (fuel : Nat) (bc : Blockchain)
    (miner : String) (t1 t2 : Int) :
    (bc.pending_transactions = [] →
      bc.mine_pending_transactions H fuel miner t1 t2 = (.ok none, bc)) ∧
    (bc.pending_transactions ≠ [] → miner = "" →
      bc.mine_pending_transactions H fuel miner t1 t2 = (.error .validationE, bc)) ∧
    (∀ b bc', bc.mine_pending_transactions H fuel miner t1 t2 = (.ok (some b), bc') →
      ∃ d' rt, bc.adjust_difficulty = .ok d' ∧ bc'.difficulty = d' ∧
        rt.sender = "System" ∧ rt.receiver = miner ∧ rt.amount = bc.mining_reward ∧
        b.transactions = some (bc.pending_transactions ++ [rt]) ∧
        bc'.chain = bc.chain ++ [b] ∧ bc'.pending_transactions = []) := by
  refine ⟨?_, ?_, ?_⟩
  · intro hpe
    unfold Blockchain.mine_pending_transactions
    rw [if_pos hpe]
  · intro hpe hm
    unfold Blockchain.mine_pending_transactions
    rw [if_neg hpe, if_pos hm]
  · intro b bc' hres
    unfold Blockchain.mine_pending_transactions at hres
    by_cases hpe : bc.pending_transactions = []
    · rw [if_pos hpe] at hres
      exact absurd (congrArg Prod.fst hres) (by simp)
    · rw [if_neg hpe] at hres
      by_cases hm : miner = ""
      · rw [if_pos hm] at hres
        exact absurd (congrArg Prod.fst hres) (by simp)
      · rw [if_neg hm] at hres
        cases hadj : bc.adjust_difficulty with
        | error e =>
          rw [hadj] at hres
          exact absurd (congrArg Prod.fst hres) (by simp)
        | ok d' =>
          rw [hadj] at hres
          dsimp only at hres
          cases hrw : Transaction.create H (some "System") (some miner)
              (.num bc.mining_reward) none t1 with
          | error e =>
            rw [hrw] at hres
            exact absurd (congrArg Prod.fst hres) (by simp)
          | ok reward =>
            rw [hrw] at hres
            dsimp only at hres
            cases hlast : bc.chain.getLast? with
            | none =>
              rw [hlast] at hres
              exact absurd (congrArg Prod.fst hres) (by simp)
            | some prev =>
              rw [hlast] at hres
              dsimp only at hres
              cases hbc : Block.create H (prev.index + 1) t2
                  (.pyList ((bc.pending_transactions ++ [reward]).map .pyTx))
                  prev.hash d' with
              | error e =>
                rw [hbc] at hres
                exact absurd (congrArg Prod.fst hres) (by simp)
              | ok nb =>
                rw [hbc] at hres
                dsimp only at hres
                cases hml : Block.mine_loop H fuel nb with
                | none =>
                  rw [hml] at hres
                  exact absurd (congrArg Prod.fst hres) (by simp)
                | some mined =>
                  rw [hml] at hres
                  have h1 := congrArg Prod.fst hres
                  have h2 := congrArg Prod.snd hres
                  simp only [Except.ok.injEq, Option.some.injEq] at h1
                  dsimp only at h2
                  subst h1
                  subst h2
                  have hne : bc.pending_transactions ++ [reward] ≠ [] := by simp
                  rw [Block.create_txs (bc.pending_transactions ++ [reward]) hne] at hbc
                  injection hbc with hnb
                  subst hnb
                  obtain ⟨e1, e2, e3, e4, e5, e6, e7, e8⟩ := Block.mine_loop_spec hml rfl
                  dsimp only at e3
                  obtain ⟨s', r', x, hs, hr2, hx, hrew, _, _⟩ := Transaction.create_ok hrw
                  injection hs with hs
                  injection hr2 with hr2
                  injection hx with hx
                  refine ⟨d', reward, rfl, rfl, ?_, ?_, ?_, ?_, rfl, rfl⟩
                  · rw [hrew, ← hs]
                  · rw [hrew, ← hr2]
                  · rw [hrew, ← hx]
                  · exact e3

/-- A concrete pre-state for the **C4** analysis: one (arbitrary) block
on the chain and one pending transaction. -/
def bcC4 : Blockchain :=
  ⟨[⟨0, 0, none, .pyNone, "0", 0, 0, "00"⟩], 1, 10, 5,
   [⟨"Alice", "Bob", 5, 0, "tid"⟩], 10, [("Alice", 100)]⟩

/-- Counterexample for **C4** as stated: with a non-empty pool and the
non-empty miner address `"System"`, the call raises `MiningError` (the
reward transaction has equal sender and receiver) and appends nothing,
where the claim promises a mined block. -/
theorem mine_contract_counterexample :
    bcC4.mine_pending_transactions zeroHash 5 "System" 1 2 = (.error .miningE, bcC4) ∧
      bcC4.pending_transactions ≠ [] ∧ ("System" : String) ≠ "" :=
  ⟨rfl, by decide, by decide⟩

/-- The result of the concrete successful mining call used as the
**C4** witness. -/
def mineW : Except Err (Option Block) × Blockchain :=
  bcC4.mine_pending_transactions zeroHash 5 "Miner1" 1 2

def junkBlock : Block := ⟨0, 0, none, .pyNone, "", 0, 0, ""⟩

def mineWBlock : Block :=
  match mineW.1 with
  | .ok (some b) => b
  | _ => junkBlock

/-- Witness for **C4** (amended): a concrete successful mining call. -/
theorem mine_contract_witness :
    bcC4.mine_pending_transactions zeroHash 5 "Miner1" 1 2 =
      (.ok (some mineWBlock), mineW.2) ∧
    mineW.2.chain = bcC4.chain ++ [mineWBlock] ∧
    mineW.2.pending_transactions = [] ∧
    mineWBlock.transactions ≠ none := by
  have h3 := (mine_contract zeroHash 5 bcC4 "Miner1" 1 2).2.2 mineWBlock mineW.2 rfl
  obtain ⟨d', rt, _, _, _, _, _, htx, hch, hpd⟩ := h3
  refine ⟨rfl, hch, hpd, ?_⟩
  rw [htx]
  simp

/-- **C7** (amended): `create_transaction` raises
`InsufficientBalanceError` whenever the request passes structural
validation (distinct non-missing parties, numeric positive amount), the
sender is not `"System"`, and the pending-inclusive balance is below
the amount — structurally invalid requests are rejected earlier with a
different error even when the balance is also insufficient (see the
counterexample) — and it is atomic: every rejection leaves the state
unchanged, and success appends exactly the new transaction to the
pool. -/
theorem create_transaction_contract (H : String → String) (bc : Blockchain)
    (s r : String) (a : Int) (now : Int) :
    (s ≠ "System" → s ≠ r → 0 < a → bc.get_balance s true < a →
      bc.create_transaction H (some s) (some r) (.num a) now =
        (.error .insufficientBalanceE, bc)) ∧
    (∀ so ro am e bc', bc.create_transaction H so ro am now = (.error e, bc') →
      bc' = bc) ∧
    (∀ so ro am t bc', bc.create_transaction H so ro am now = (.ok t, bc') →
      bc' = { bc with pending_transactions := bc.pending_transactions ++ [t] }) := by
  refine ⟨?_, ?_, ?_⟩
  · intro hsys hsr hpos hbal
    have hne1 : ¬(a ≤ 0 ∧ s ≠ "System") := by
      intro hc
      exact absurd hc.1 (by omega)
    unfold Blockchain.create_transaction Transaction.create
    dsimp only
    rw [if_neg hne1, if_neg hsr]
    dsimp only
    split_ifs with hA hB
    · exfalso
      simp only [Transaction.is_valid, if_neg hsr, if_neg hne1, Bool.not_true] at hA
      exact absurd hA (by simp)
    · rfl
    · exact absurd ⟨hsys, hbal⟩ hB
  · intro so ro am e bc' hres
    unfold Blockchain.create_transaction at hres
    cases hc : Transaction.create H so ro am none now with
    | error e' =>
      rw [hc] at hres
      exact (congrArg Prod.snd hres).symm
    | ok tx =>
      rw [hc] at hres
      dsimp only at hres
      split_ifs at hres
      · exact (congrArg Prod.snd hres).symm
      · exact (congrArg Prod.snd hres).symm
      · exact absurd (congrArg Prod.fst hres) (by simp)
  · intro so ro am t bc' hres
    unfold Blockchain.create_transaction at hres
    cases hc : Transaction.create H so ro am none now with
    | error e' =>
      rw [hc] at hres
      exact absurd (congrArg Prod.fst hres) (by simp)
    | ok tx =>
      rw [hc] at hres
      dsimp only at hres
      split_ifs at hres
      · exact absurd (congrArg Prod.fst hres) (by simp)
      · exact absurd (congrArg Prod.fst hres) (by simp)
      · have h1 := congrArg Prod.fst hres
        have h2 := congrArg Prod.snd hres
        simp only [Except.ok.injEq] at h1
        dsimp only at h2
        subst h1
        exact h2.symm

/-- A concrete empty-pool ledger with no balances, for the **C7**
analysis. -/
def bcC7 : Blockchain := ⟨[], 2, 10, 5, [], 10, []⟩

/-- Counterexample for **C7** as stated: a self-payment request whose
sender balance is below the amount is rejected with
`InvalidTransactionError` (from the structural check), not
`InsufficientBalanceError`. -/
theorem create_transaction_counterexample :
    (bcC7.create_transaction zeroHash (some "Alice") (some "Alice") (.num 50) 0).1 =
      .error .invalidTxE ∧
    Err.invalidTxE ≠ Err.insufficientBalanceE ∧
    bcC7.get_balance "Alice" true < 50 ∧ ("Alice" : String) ≠ "System" :=
  ⟨rfl, by decide, by decide, by decide⟩

/-- Witness for **C7** (amended): a structurally valid transfer with an
insufficient balance is rejected with `InsufficientBalanceError` and
the state is unchanged. -/
theorem create_transaction_contract_witness :
    bcC7.create_transaction zeroHash (some "Alice") (some "Bob") (.num 50) 0 =
      (.error .insufficientBalanceE, bcC7) :=
  (create_transaction_contract zeroHash bcC7 "Alice" "Bob" 50 0).1
    (by decide) (by decide) (by decide) (by decide)

/-- **C8**: constructing a `Transaction` fails exactly when sender or
receiver is missing, the amount is non-numeric (including `None`), the
amount is non-positive while the sender is not `"System"`, or sender
equals receiver; on success the fields are set as given and the id is
the content hash of sender, receiver, amount and timestamp. -/
theorem transaction_create_spec (H : String → String) (s r : Option String)
    (a : AmountIn) (ts : Option Int) (now : Int) :
    ((∃ e, Transaction.create H s r a ts now = .error e) ↔
      (s = none ∨ r = none ∨ a = .nonNum ∨
       (∃ x, a = .num x ∧ x ≤ 0 ∧ s ≠ some "System") ∨ s = r)) ∧
    (∀ t, Transaction.create H s r a ts now = .ok t →
      ∃ s' r' x, s = some s' ∧ r = some r' ∧ a = .num x ∧
        t.sender = s' ∧ t.receiver = r' ∧ t.amount = x ∧ t.timestamp = ts.getD now ∧
        t.transaction_id = H (txContent s' r' x (ts.getD now))) := by
  constructor
  · constructor
    · rintro ⟨e, he⟩
      match s, r, a with
      | none, _, _ => exact Or.inl rfl
      | some s', none, _ => exact Or.inr (Or.inl rfl)
      | some s', some r', .nonNum => exact Or.inr (Or.inr (Or.inl rfl))
      | some s', some r', .num x =>
        unfold Transaction.create at he
        dsimp only at he
        by_cases h1 : x ≤ 0 ∧ s' ≠ "System"
        · exact Or.inr (Or.inr (Or.inr (Or.inl ⟨x, rfl, h1.1, by simpa using h1.2⟩)))
        · rw [if_neg h1] at he
          by_cases h2 : s' = r'
          · exact Or.inr (Or.inr (Or.inr (Or.inr (by rw [h2]))))
          · rw [if_neg h2] at he
            exact absurd he (by simp)
    · intro hd
      rcases hd with h | h | h | ⟨x, hx, hle, hsys⟩ | h
      · subst h
        exact ⟨.validationE, rfl⟩
      · subst h
        match s with
        | none => exact ⟨.validationE, rfl⟩
        | some s' => exact ⟨.validationE, rfl⟩
      · subst h
        match s, r with
        | none, _ => exact ⟨.validationE, rfl⟩
        | some s', none => exact ⟨.validationE, rfl⟩
        | some s', some r' => exact ⟨.validationE, rfl⟩
      · subst hx
        match s, hsys with
        | none, _ => exact ⟨.validationE, rfl⟩
        | some s', hsys =>
          match r with
          | none => exact ⟨.validationE, rfl⟩
          | some r' =>
            refine ⟨.validationE, ?_⟩
            unfold Transaction.create
            dsimp only
            rw [if_pos ⟨hle, by simpa using hsys⟩]
      · match s, h with
        | none, h => exact ⟨.validationE, rfl⟩
        | some s', h =>
          cases h
          match a with
          | .nonNum => exact ⟨.validationE, rfl⟩
          | .num x =>
            by_cases hc : x ≤ 0 ∧ s' ≠ "System"
            · refine ⟨.validationE, ?_⟩
              unfold Transaction.create
              dsimp only
              rw [if_pos hc]
            · refine ⟨.invalidTxE, ?_⟩
              unfold Transaction.create
              dsimp only
              rw [if_neg hc, if_pos rfl]
  · intro t ht
    obtain ⟨s', r', x, h1, h2, h3, h4, _, _⟩ := Transaction.create_ok ht
    subst h4
    exact ⟨s', r', x, h1, h2, h3, rfl, rfl, rfl, rfl, rfl⟩

/-- Witness for **C8**: a self-payment is rejected; a well-formed
transfer constructs with the content-hash id. -/
theorem transaction_create_spec_witness :
    Transaction.create zeroHash (some "Alice") (some "Alice") (.num 5) none 0 =
      .error .invalidTxE ∧
    Transaction.create zeroHash (some "Alice") (some "Bob") (.num 5) (some 3) 0 =
      .ok ⟨"Alice", "Bob", 5, 3, zeroHash (txContent "Alice" "Bob" 5 3)⟩ := by
  have happ := (transaction_create_spec zeroHash (some "Alice") (some "Alice")
    (.num 5) none 0).1.mpr (Or.inr (Or.inr (Or.inr (Or.inr rfl))))
  exact ⟨rfl, rfl⟩

/-- **C9** (amended): whether a constructed block stores its payload as
a transaction list or as legacy data is inferred from the runtime shape
of the payload — it is a transaction block exactly when the payload is
a non-empty Python list whose first element is a `Transaction` object —
not chosen by any explicit caller-supplied tag. -/
theorem block_payload_classification (H : String → String) (i t : Int) (d : PyVal)
    (p : String) (df : Int) (b : Block) (h : Block.create H i t d p df = .ok b) :
    (∃ l, b.transactions = some l) ↔ txShaped d = true := by
  constructor
  · rintro ⟨l, hl⟩
    by_contra hs
    have hs' : txShaped d = false := by
      revert hs
      cases txShaped d <;> simp
    obtain ⟨h1, _⟩ := Block.create_legacy hs' h
    rw [h1] at hl
    exact Option.noConfusion hl
  · intro hs
    match d, hs with
    | .pyList (x :: xs), hs =>
      simp only [txShaped] at hs
      unfold Block.create classify at h
      dsimp only at h
      rw [if_pos hs] at h
      cases hat : asTxList (x :: xs) with
      | none => rw [hat] at h ; simp at h
      | some txs =>
        rw [hat] at h
        simp only [Option.map_some'] at h
        cases hcalc : Block.calculate_hash H ⟨i, t, some txs, .pyNone, p, df, 0, ""⟩ with
        | none => rw [hcalc] at h ; simp at h
        | some hv =>
          rw [hcalc] at h
          simp only [Except.ok.injEq] at h
          subst h
          exact ⟨txs, rfl⟩

def txS : Transaction := ⟨"A", "B", 1, 0, "x"⟩

def blkTx : Block :=
  (Block.create zeroHash 0 0 (.pyList [.pyTx txS]) "0" 0).toOption.getD junkBlock

def blkEmpty : Block :=
  (Block.create zeroHash 0 0 (.pyList []) "0" 0).toOption.getD junkBlock

/-- Counterexample for **C9** as stated: the constructor takes no
payload tag, and two list payloads differing only in runtime shape are
classified differently — a singleton transaction list becomes a
transaction block while an empty list becomes a legacy block. -/
theorem block_payload_counterexample :
    Block.create zeroHash 0 0 (.pyList [.pyTx txS]) "0" 0 = .ok blkTx ∧
    blkTx.transactions = some [txS] ∧
    Block.create zeroHash 0 0 (.pyList []) "0" 0 = .ok blkEmpty ∧
    blkEmpty.transactions = none ∧ blkEmpty.data = .pyList [] :=
  ⟨rfl, rfl, rfl, rfl, rfl⟩

/-- Witness for **C9** (amended) at the concrete singleton payload. -/
theorem block_payload_classification_witness :
    txShaped (.pyList [.pyTx txS]) = true ∧ blkTx.transactions ≠ none := by
  refine ⟨rfl, ?_⟩
  obtain ⟨l, hl⟩ := (block_payload_classification zeroHash 0 0 (.pyList [.pyTx txS])
    "0" 0 blkTx rfl).mpr rfl
  rw [hl]
  simp

/-- **C10** (implicit): the block hash does not cover the difficulty
field — two blocks equal in everything but difficulty hash identically —
so rewriting a committed block's recorded difficulty down to any value
in `[1, difficulty)` leaves `is_chain_valid` returning `true`:
difficulty tampering is undetected. -/
theorem difficulty_not_hashed (H : String → String) :
    (∀ (b : Block) (d' : Int),
      Block.calculate_hash H { b with difficulty := d' } = Block.calculate_hash H b) ∧
    (∀ (bc : Blockchain) (i : Nat) (b : Block) (d' : Int),
      bc.is_chain_valid H = true → bc.chain[i]? = some b → 1 ≤ d' → d' < b.difficulty →
      Blockchain.is_chain_valid H
        { bc with chain := bc.chain.set i { b with difficulty := d' } } = true) := by
  have hpart1 : ∀ (b : Block) (d' : Int),
      Block.calculate_hash H { b with difficulty := d' } = Block.calculate_hash H b := by
    intro b d'
    rfl
  refine ⟨hpart1, ?_⟩
  intro bc i b d' hv hb h1 h2
  have hilen : i < bc.chain.length := (List.getElem?_eq_some_iff.mp hb).1
  have hvd := (is_chain_valid_iff H bc).mp hv
  have hmapT : (bc.chain.set i { b with difficulty := d' }).map Block.transactions =
      bc.chain.map Block.transactions := by
    rw [List.map_set]
    apply List.ext_getElem?
    intro j
    by_cases hj : i = j
    · subst hj
      rw [List.getElem?_set_self (by simpa using hilen)]
      rw [List.getElem?_map, hb]
      rfl
    · rw [List.getElem?_set_ne hj]
  rw [is_chain_valid_iff]
  intro j c hc
  by_cases hj : j = i
  · subst hj
    rw [List.getElem?_set_self (by simpa using hilen)] at hc
    cases hc
    have hold := hvd j b hb
    unfold blockCheck at hold ⊢
    simp only [Bool.and_eq_true] at hold ⊢
    refine ⟨⟨⟨?_, ?_⟩, ?_⟩, ?_⟩
    · rw [hpart1]
      exact hold.1.1.1
    · exact powOk_mono hold.1.1.2 (by omega) (le_of_lt h2)
    · by_cases hj0 : j = 0
      · rw [if_pos hj0]
        rw [if_pos hj0] at hold
        exact hold.1.2
      · rw [if_neg hj0]
        rw [if_neg hj0] at hold
        have hne : j ≠ j - 1 := by omega
        rw [List.getElem?_set_ne hne]
        exact hold.1.2
    · rw [validate_congr H bc
        { bc with chain := bc.chain.set j { b with difficulty := d' } } j rfl hmapT]
      exact hold.2
  · rw [List.getElem?_set_ne (fun hij => hj hij.symm)] at hc
    have hold := hvd j c hc
    unfold blockCheck at hold ⊢
    simp only [Bool.and_eq_true] at hold ⊢
    refine ⟨⟨⟨hold.1.1.1, hold.1.1.2⟩, ?_⟩, ?_⟩
    · by_cases hj0 : j = 0
      · rw [if_pos hj0]
        rw [if_pos hj0] at hold
        exact hold.1.2
      · rw [if_neg hj0]
        rw [if_neg hj0] at hold
        by_cases hj1 : i = j - 1
        · subst hj1
          rw [List.getElem?_set_self (by simpa using hilen)]
          rw [hb] at hold
          simpa using hold.1.2
        · rw [List.getElem?_set_ne hj1]
          exact hold.1.2
    · rw [validate_congr H bc
        { bc with chain := bc.chain.set i { b with difficulty := d' } } j rfl hmapT]
      exact hold.2

/-- A concrete difficulty-2 block whose stored hash satisfies its own
content hash under `zeroHash`, for the **C10** witness. -/
def blkC10 : Block :=
  ⟨0, 0, none, .pyInt 5, "0", 2, 0,
    zeroHash (intRepr 0 ++ intRepr 0 ++ intRepr 5 ++ "0" ++ natRepr 0)⟩

/-- A concrete valid single-block chain holding `blkC10`. -/
def bcC10 : Blockchain := ⟨[blkC10], 2, 10, 5, [], 10, []⟩

/-- `bcC10` with the committed block's difficulty rewritten from 2 down
to 1. -/
def bcC10T : Blockchain :=
  { bcC10 with chain := bcC10.chain.set 0 { blkC10 with difficulty := 1 } }

/-- Witness for **C10**: lowering the concrete block's difficulty from
2 to 1 keeps the chain valid. -/
theorem difficulty_not_hashed_witness :
    bcC10.is_chain_valid zeroHash = true ∧ bcC10T.is_chain_valid zeroHash = true := by
  refine ⟨by decide, ?_⟩
  exact (difficulty_not_hashed zeroHash).2 bcC10 0 blkC10 1 (by decide) rfl
    (by decide) (by decide)

/-! ## C1: tamper detection -/

theorem joinComma_cons (x : String) (l : List String) (hl : l ≠ []) :
    joinComma (x :: l) = (x ++ ", ") ++ joinComma l := by
  cases l with
  | nil => exact absurd rfl hl
  | cons z zs => rfl

/-- `joinComma` separates positions: with identical surroundings, equal
joins force the distinguished items equal. -/
theorem joinComma_pos : ∀ (xs zs : List String) (y y' : String),
    joinComma (xs ++ y :: zs) = joinComma (xs ++ y' :: zs) → y = y' := by
  intro xs
  induction xs with
  | nil =>
    intro zs y y' h
    cases zs with
    | nil => simpa [joinComma] using h
    | cons z zs' =>
      simp only [List.nil_append, joinComma] at h
      exact strCancelR (strCancelR h)
  | cons x xs' ih =>
    intro zs y y' h
    simp only [List.cons_append] at h
    rw [joinComma_cons x (xs' ++ y :: zs) (by simp),
        joinComma_cons x (xs' ++ y' :: zs) (by simp)] at h
    exact ih zs y y' (strCancelL h)

/-- The amount segment of `txJson` is recoverable: equal renderings with
equal other fields force equal amounts. -/
theorem txJson_amount_inj {t : Transaction} {a' : Int}
    (h : txJson { t with amount := a' } = txJson t) : a' = t.amount := by
  unfold txJson at h
  dsimp only at h
  have h1 := strCancelR h
  have h2 := strCancelR h1
  have h3 := strCancelR h2
  have h4 := strCancelR h3
  have h5 := strCancelR h4
  have h6 := strCancelR h5
  have h7 := strCancelR h6
  have h8 := strCancelR h7
  have h9 := strCancelR h8
  exact intRepr_inj (strCancelL h9)

/-- A block whose stored hash equals its recomputed hash has a
serialisable payload. -/
theorem calcHash_dataString {H : String → String} {b : Block}
    (h : Block.calculate_hash H b = some b.hash) : ∃ s, dataString b = some s := by
  unfold Block.calculate_hash blockContent at h
  cases hd : dataString b with
  | none => rw [hd] at h ; simp at h
  | some s => exact ⟨s, rfl⟩

/-- On a position that passes `blockCheck`, the stored hash is exactly
the recomputed content hash. -/
theorem blockCheck_hash_eq {H : String → String} {bc : Blockchain} {i : Nat} {b : Block}
    (h : blockCheck H bc i b = true) : Block.calculate_hash H b = some b.hash := by
  unfold blockCheck at h
  simp only [Bool.and_eq_true] at h
  have h1 := h.1.1.1
  cases hc : Block.calculate_hash H b with
  | none => rw [hc] at h1 ; simp at h1
  | some c =>
    rw [hc] at h1
    simp only [beq_iff_eq] at h1
    rw [h1]

/-- Replacing the stored hash by a different value makes the
hash-recomputation test fail. -/
theorem hashNe_of_hash_ne (H : String → String) {b : Block} {h' : String}
    (hcb : Block.calculate_hash H b = some b.hash) (hne : h' ≠ b.hash) :
    ∀ c, Block.calculate_hash H { b with hash := h' } = some c →
      (({ b with hash := h' }).hash == c) = false := by
  intro c hc
  have hsame : Block.calculate_hash H { b with hash := h' } = some b.hash := hcb
  rw [hsame] at hc
  have hcc := Option.some.inj hc
  simp only [beq_eq_false_iff_ne, ne_eq]
  rw [← hcc]
  exact hne

/-- Under an injective hash, changing the hashed content of a block
whose stored hash was correct makes the hash-recomputation test fail. -/
theorem hashNe_of_content_ne (H : String → String) (hinj : Function.Injective H)
    {b b' : Block} (hcb : Block.calculate_hash H b = some b.hash)
    (hh : b'.hash = b.hash) (hne : blockContent b' ≠ blockContent b) :
    ∀ c, Block.calculate_hash H b' = some c → (b'.hash == c) = false := by
  intro c hc
  unfold Block.calculate_hash at hcb hc
  cases hco : blockContent b with
  | none => rw [hco] at hcb ; simp at hcb
  | some s =>
    rw [hco] at hcb
    simp only [Option.map_some', Option.some.injEq] at hcb
    cases hco' : blockContent b' with
    | none => rw [hco'] at hc ; simp at hc
    | some s' =>
      rw [hco'] at hc
      simp only [Option.map_some', Option.some.injEq] at hc
      simp only [beq_eq_false_iff_ne, ne_eq]
      intro hEq
      apply hne
      rw [hco, hco']
      have hss : H s' = H s := by rw [hc, ← hEq, hh, ← hcb]
      rw [hinj hss]

/-- Overwriting position `i` of a chain with a block failing the
hash-recomputation test makes the whole chain invalid. -/
theorem tamper_invalid (H : String → String) (bc : Blockchain) (i : Nat) (b b' : Block)
    (hb : bc.chain[i]? = some b)
    (hA : ∀ c, Block.calculate_hash H b' = some c → (b'.hash == c) = false) :
    Blockchain.is_chain_valid H { bc with chain := bc.chain.set i b' } = false := by
  have hilen : i < bc.chain.length := (List.getElem?_eq_some_iff.mp hb).1
  apply is_chain_valid_false H _ i b'
  · exact List.getElem?_set_self hilen
  · unfold blockCheck
    cases hc : Block.calculate_hash H b' with
    | none => simp
    | some c => simp [hA c hc]

/-- **C1** (amended): on a valid chain under an injective hash, mutating
a committed block's stored hash, its `previous_hash`, its payload
(transaction list or legacy data) *provided the serialised payload
changes*, or any contained transaction's amount, makes
`is_chain_valid` return `false`. (As literally stated the claim fails:
a payload mutation to a different value with the same serialisation —
e.g. the int `5` to the string `"5"` — is undetected.) -/
theorem tamper_detection (H : String → String) (hinj : Function.Injective H)
    (bc : Blockchain) (i : Nat) (b : Block)
    (hv : bc.is_chain_valid H = true) (hb : bc.chain[i]? = some b) :
    (∀ h', h' ≠ b.hash →
      Blockchain.is_chain_valid H
        { bc with chain := bc.chain.set i { b with hash := h' } } = false) ∧
    (∀ p', p' ≠ b.previous_hash →
      Blockchain.is_chain_valid H
        { bc with chain := bc.chain.set i { b with previous_hash := p' } } = false) ∧
    (∀ tr' dat', dataString { b with transactions := tr', data := dat' } ≠ dataString b →
      Blockchain.is_chain_valid H
        { bc with chain := bc.chain.set i { b with transactions := tr', data := dat' } } = false) ∧
    (∀ l1 t l2 a', b.transactions = some (l1 ++ t :: l2) → a' ≠ t.amount →
      Blockchain.is_chain_valid H { bc with chain := bc.chain.set i { b with transactions := some (l1 ++ { t with amount := a' } :: l2) } } = false) := by
  have hvd := (is_chain_valid_iff H bc).mp hv
  have hcb := blockCheck_hash_eq (hvd i b hb)
  refine ⟨?_, ?_, ?_, ?_⟩
  · intro h' hne
    apply tamper_invalid H bc i b _ hb
    exact hashNe_of_hash_ne H hcb hne
  · intro p' hne
    obtain ⟨s, hds⟩ := calcHash_dataString hcb
    apply tamper_invalid H bc i b _ hb
    refine hashNe_of_content_ne H hinj hcb ?_ ?_
    · rfl
    have hbc' : blockContent { b with previous_hash := p' } =
        some (intRepr b.index ++ intRepr b.timestamp ++ s ++ p' ++ natRepr b.nonce) := by
      have hds' : dataString { b with previous_hash := p' } = some s := hds
      unfold blockContent
      rw [hds']
      rfl
    have hbcb : blockContent b =
        some (intRepr b.index ++ intRepr b.timestamp ++ s ++ b.previous_hash ++
          natRepr b.nonce) := by
      unfold blockContent
      rw [hds]
      rfl
    rw [hbc', hbcb]
    intro hEq
    have hEq' := Option.some.inj hEq
    exact hne (strCancelL (strCancelR hEq'))
  · intro tr' dat' hdne
    obtain ⟨s, hds⟩ := calcHash_dataString hcb
    apply tamper_invalid H bc i b _ hb
    refine hashNe_of_content_ne H hinj hcb ?_ ?_
    · rfl
    cases hds' : dataString { b with transactions := tr', data := dat' } with
    | none =>
      intro hEq
      unfold blockContent at hEq
      rw [hds', hds] at hEq
      simp at hEq
    | some s' =>
      intro hEq
      unfold blockContent at hEq
      rw [hds', hds] at hEq
      simp only [Option.map_some', Option.some.injEq] at hEq
      have hss : s' = s := strCancelL (strCancelR (strCancelR hEq))
      rw [hds', hds] at hdne
      exact hdne (by rw [hss])
  · intro l1 t l2 a' htr hane
    apply tamper_invalid H bc i b _ hb
    refine hashNe_of_content_ne H hinj hcb ?_ ?_
    · rfl
    have hdsb : dataString b = some (txListJson (l1 ++ t :: l2)) := by
      unfold dataString
      rw [htr]
    have hds' : dataString { b with transactions := some (l1 ++ { t with amount := a' } :: l2) } =
        some (txListJson (l1 ++ { t with amount := a' } :: l2)) := rfl
    intro hEq
    unfold blockContent at hEq
    rw [hds', hdsb] at hEq
    simp only [Option.map_some', Option.some.injEq] at hEq
    have hTL : txListJson (l1 ++ { t with amount := a' } :: l2) = txListJson (l1 ++ t :: l2) :=
      strCancelL (strCancelR (strCancelR hEq))
    have hJ : joinComma ((l1 ++ { t with amount := a' } :: l2).map txJson) =
        joinComma ((l1 ++ t :: l2).map txJson) := by
      unfold txListJson at hTL
      exact strCancelL (strCancelR hTL)
    simp only [List.map_append, List.map_cons] at hJ
    exact hane (txJson_amount_inj (joinComma_pos (l1.map txJson) (l2.map txJson) _ _ hJ))

/-- A concrete valid single-block chain whose committed block carries
the legacy int payload `5`, for the **C1** counterexample and
witness. -/
def blkC1 : Block :=
  ⟨0, 0, none, .pyInt 5, "0", 0, 0,
    zeroHash (intRepr 0 ++ intRepr 0 ++ intRepr 5 ++ "0" ++ natRepr 0)⟩

def bcC1 : Blockchain := ⟨[blkC1], 2, 10, 5, [], 10, []⟩

/-- `bcC1` with the committed legacy payload mutated from the int `5`
to the different value: the string `"5"`. -/
def bcC1T : Blockchain :=
  { bcC1 with chain := bcC1.chain.set 0 { blkC1 with data := .pyStr "5" } }

/-- `bcC1` with the committed block's stored hash overwritten. -/
def bcC1H : Blockchain :=
  { bcC1 with chain := bcC1.chain.set 0 { blkC1 with hash := "tampered" } }

/-- Counterexample for **C1** as stated: mutating the committed legacy
payload `5` (an int) to the different value `"5"` (a string) serialises
identically, so the chain stays valid — the payload mutation is
undetected. -/
theorem tamper_detection_counterexample :
    bcC1.is_chain_valid zeroHash = true ∧
    PyVal.pyStr "5" ≠ blkC1.data ∧
    bcC1T.is_chain_valid zeroHash = true := by
  refine ⟨by decide, ?_, by decide⟩
  intro h
  exact PyVal.noConfusion h

/-- Witness for **C1** (amended): overwriting the committed block's
stored hash on the concrete chain is detected. -/
theorem tamper_detection_witness : bcC1H.is_chain_valid zeroHash = false :=
  (tamper_detection zeroHash zeroHash_inj bcC1 0 blkC1 (by decide) rfl).1
    "tampered" (by decide)

end PyChain
